import Mathlib

/-!
Shallow embedding of the `FileDatabase` class of `simple-nd-base`
(interface `src/models/file-database`, implementation the `FileDatabase`
TypeScript class): an ndjson-file-backed record store.  File contents are
lists of characters, the filesystem is a finite map from file names to
contents, and each store operation is the sequential file-level semantics
of the corresponding TypeScript method.  The serializer
(`lockAndExecute`) is modelled separately as a settled-promise-chain
state machine; the pure operations model the file I/O performed inside
one admitted operation.
-/

namespace NdBase

/-- File contents: the sequence of characters of the UTF-8 text file. -/
abbrev Content := List Char

/-- Split file contents into lines at newline characters, as the
`readline` interface does on a fully buffered file: `[]` gives one empty
line, and a trailing newline yields a final empty line. -/
def splitLines : Content → List Content
  | [] => [[]]
  | c :: rest =>
    if c = '\n' then [] :: splitLines rest
    else
      match splitLines rest with
      | [] => [[c]]
      | l :: ls => (c :: l) :: ls

/-- A line is blank when `line.trim()` is empty, i.e. every character is
whitespace. -/
def isBlankLine (l : Content) : Bool := l.all Char.isWhitespace

/-- The record codec (`JSON.stringify` / `JSON.parse` on single lines).
The specification treats the codec as an external collaborator with
interface `serialize : Record → line`, `parse : line → Record ∣ error`,
so it is a parameter here: a serializer producing one non-blank,
newline-free line per record, and a parser inverting it. -/
structure LineCodec (Rec : Type) where
  stringify : Rec → Content
  parse : Content → Except String Rec
  noNewline : ∀ r, '\n' ∉ stringify r
  nonBlank : ∀ r, isBlankLine (stringify r) = false
  roundTrip : ∀ r, parse (stringify r) = Except.ok r

/-- Failures reported by the modelled filesystem calls. -/
inductive FsError where
  | enoent
  | eacces
deriving DecidableEq

/-- Failures reported by a store operation to its caller. -/
inductive DbError where
  | parseError (msg : String)
  | fsError (e : FsError)
  | couldNotDeleteEntry
deriving DecidableEq

/-- Look a file name up in an association list of files. -/
def lookupFile : List (String × Content) → String → Option Content
  | [], _ => none
  | e :: rest, name => if e.1 = name then some e.2 else lookupFile rest name

/-- Create or overwrite one file in an association list of files. -/
def setFile : List (String × Content) → String → Content → List (String × Content)
  | [], name, c => [(name, c)]
  | e :: rest, name, c =>
    if e.1 = name then (name, c) :: rest else e :: setFile rest name c

/-- Remove a file from an association list of files. -/
def removeFile : List (String × Content) → String → List (String × Content)
  | [], _ => []
  | e :: rest, name =>
    if e.1 = name then removeFile rest name else e :: removeFile rest name

/-- The filesystem: named files with contents, plus the set of names on
which `fs.stat` fails even though the entry may exist (e.g. a permission
error); `stat` on an absent name fails with `ENOENT` regardless. -/
structure FileSys where
  files : List (String × Content)
  badStat : List String
deriving DecidableEq

/-- Contents of a named file, if it exists. -/
def fsRead (fs : FileSys) (name : String) : Option Content :=
  lookupFile fs.files name

/-- Model of the private `writeFile(fileName, contents, doAppend)` helper:
append to (or create) the file when `doAppend`, truncate-write otherwise. -/
def writeFile (fs : FileSys) (fileName : String) (contents : Content)
    (doAppend : Bool) : FileSys :=
  let newContents :=
    if doAppend then (fsRead fs fileName).getD [] ++ contents else contents
  { fs with files := setFile fs.files fileName newContents }

/-- Model of the private `deleteFile` helper (`fs.unlink`): fails when the
file is absent. -/
def deleteFile (fs : FileSys) (fileName : String) : Except FsError FileSys :=
  match fsRead fs fileName with
  | none => Except.error FsError.enoent
  | some _ => Except.ok { fs with files := removeFile fs.files fileName }

/-- Model of the private `renameFile` helper (`fs.rename`): fails when the
source is absent, atomically replaces any file at the destination. -/
def renameFile (fs : FileSys) (oldName newName : String) : Except FsError FileSys :=
  match fsRead fs oldName with
  | none => Except.error FsError.enoent
  | some c =>
      Except.ok { fs with files := setFile (removeFile fs.files oldName) newName c }

/-- Model of `fs.stat`, reporting the byte size on success. -/
def fsStat (fs : FileSys) (name : String) : Except FsError Nat :=
  if name ∈ fs.badStat then Except.error FsError.eacces
  else
    match fsRead fs name with
    | none => Except.error FsError.enoent
    | some c => Except.ok c.length

/-- Model of the private `fileExists` helper: it resolves `false` on every
`fs.stat` error, whatever its cause. -/
def fileExists (fs : FileSys) (name : String) : Bool :=
  match fsStat fs name with
  | Except.ok _ => true
  | Except.error _ => false

/-- The temporary-file name derived in the constructor:
`this.ndjsonFilename + ".tmp.ndjson"`. -/
def tmpName (ndjsonFilename : String) : String := ndjsonFilename ++ ".tmp.ndjson"

/-- The line loop of `forEachRecord`: skip blank lines, parse each other
line, feed the record to the visitor; a `false` continuation flag stops
the iteration. The visitor threads a state `σ` (the mutable environment
the TypeScript callbacks close over). -/
def scanLines {Rec σ : Type} (C : LineCodec Rec) (f : σ → Rec → σ × Bool) :
    List Content → σ → Except DbError σ
  | [], s => Except.ok s
  | line :: rest, s =>
    if isBlankLine line then scanLines C f rest s
    else
      match C.parse line with
      | Except.error e => Except.error (DbError.parseError e)
      | Except.ok r =>
        if (f s r).2 then scanLines C f rest (f s r).1 else Except.ok (f s r).1

/-- Model of `forEachRecord`: a missing backing file (any `stat` failure)
is treated as an empty store; otherwise the file's lines are scanned. -/
def forEachRecord {Rec σ : Type} (C : LineCodec Rec) (fs : FileSys)
    (fname : String) (f : σ → Rec → σ × Bool) (init : σ) : Except DbError σ :=
  if fileExists fs fname then
    scanLines C f (splitLines ((fsRead fs fname).getD [])) init
  else Except.ok init

/-- Model of `getAllRecords`: collect every record via `forEachRecord`. -/
def getAllRecords {Rec : Type} (C : LineCodec Rec) (fs : FileSys)
    (fname : String) : Except DbError (List Rec) :=
  forEachRecord C fs fname (fun acc r => (acc ++ [r], true)) []

/-- Model of `findRecord`: remember an accepted record and stop on it. -/
def findRecord {Rec : Type} (C : LineCodec Rec) (fs : FileSys) (fname : String)
    (callback : Rec → Bool) : Except DbError (Option Rec) :=
  forEachRecord C fs fname
    (fun found r => (if callback r then some r else found, !callback r)) none

/-- Model of `findRecords`: collect every accepted record. -/
def findRecords {Rec : Type} (C : LineCodec Rec) (fs : FileSys) (fname : String)
    (callback : Rec → Bool) : Except DbError (List Rec) :=
  forEachRecord C fs fname
    (fun acc r => (if callback r then acc ++ [r] else acc, true)) []

/-- Model of `getNumRecords`: the length of `getAllRecords`' result. -/
def getNumRecords {Rec : Type} (C : LineCodec Rec) (fs : FileSys)
    (fname : String) : Except DbError Nat :=
  (getAllRecords C fs fname).map List.length

/-- Model of `getDatabaseSize`: `fs.promises.stat(...).size`, failing when
`stat` fails. -/
def getDatabaseSize (fs : FileSys) (fname : String) : Except FsError Nat :=
  fsStat fs fname

/-- Model of `addRecords`: serialize each record followed by a newline,
concatenate, append in one `writeFile` call. -/
def addRecords {Rec : Type} (C : LineCodec Rec) (fs : FileSys) (fname : String)
    (records : List Rec) : FileSys :=
  let newJson := records.foldl (fun str r => str ++ C.stringify r ++ ['\n']) []
  writeFile fs fname newJson true

/-- Model of `addRecord`: `addRecords` with a one-element batch. -/
def addRecord {Rec : Type} (C : LineCodec Rec) (fs : FileSys) (fname : String)
    (record : Rec) : FileSys :=
  addRecords C fs fname [record]

/-- Model of `deleteAllRecords`: truncate the file to empty contents. -/
def deleteAllRecords (fs : FileSys) (fname : String) : FileSys :=
  writeFile fs fname [] false

/-- Model of `updateRecords`: truncate the temp file, scan the backing
file appending the (possibly replaced) record for every visited record
and setting `isUpdated` on every visited record, then — when `isUpdated`
— unlink the backing file (failure swallowed) and rename the temp file
onto it (failure propagated). -/
def updateRecords {Rec : Type} (C : LineCodec Rec) (fs : FileSys) (fname : String)
    (findCallback : Rec → Bool) (newRecord : Rec) : Except DbError FileSys :=
  let fs1 := deleteAllRecords fs (tmpName fname)
  match forEachRecord C fs1 fname
      (fun (st : FileSys × Bool) record =>
        ((addRecord C st.1 (tmpName fname)
            (if findCallback record then newRecord else record), true), true))
      (fs1, false) with
  | Except.error e => Except.error e
  | Except.ok (fs2, isUpdated) =>
    if isUpdated then
      let fs3 :=
        match deleteFile fs2 fname with
        | Except.ok t => t
        | Except.error _ => fs2
      match renameFile fs3 (tmpName fname) fname with
      | Except.ok fs4 => Except.ok fs4
      | Except.error e => Except.error (DbError.fsError e)
    else Except.ok fs2

/-- Model of `deleteRecords`: truncate the temp file, scan the backing
file appending only the records the predicate rejects, setting
`isUpdated` only when a record is dropped; when `isUpdated`, unlink the
backing file (failure swallowed) and rename the temp file onto it
(failure rethrown as its own error); otherwise unlink the temp file
(failure swallowed). -/
def deleteRecords {Rec : Type} (C : LineCodec Rec) (fs : FileSys) (fname : String)
    (findCallback : Rec → Bool) : Except DbError FileSys :=
  let fs1 := deleteAllRecords fs (tmpName fname)
  match forEachRecord C fs1 fname
      (fun (st : FileSys × Bool) record =>
        if findCallback record then ((st.1, true), true)
        else ((addRecord C st.1 (tmpName fname) record, st.2), true))
      (fs1, false) with
  | Except.error e => Except.error e
  | Except.ok (fs2, isUpdated) =>
    if isUpdated then
      let fs3 :=
        match deleteFile fs2 fname with
        | Except.ok t => t
        | Except.error _ => fs2
      match renameFile fs3 (tmpName fname) fname with
      | Except.ok fs4 => Except.ok fs4
      | Except.error _ => Except.error DbError.couldNotDeleteEntry
    else
      match deleteFile fs2 (tmpName fname) with
      | Except.ok t => Except.ok t
      | Except.error _ => Except.ok fs2

/-- State of the per-instance serializer: the settled value a waiter of
`this.lockedPromise` observes, plus the world (filesystem) state the
queued callbacks mutate. -/
structure LockState (ε σ : Type) where
  chain : Except ε Unit
  world : σ

/-- Sequential model of `lockAndExecute`: when `waitForUnlock`, awaiting a
rejected chain would rethrow before the callback runs; otherwise the
callback runs on the current world, its own outcome is returned to the
caller, and the stored chain is `promise.catch(() => {})` — resolved
regardless of the callback's outcome. -/
def lockAndExecute {σ ε : Type} (callback : σ → Except ε Unit × σ)
    (waitForUnlock : Bool) (st : LockState ε σ) :
    Except ε Unit × LockState ε σ :=
  if waitForUnlock then
    match st.chain with
    | Except.error e => (Except.error e, st)
    | Except.ok _ =>
        ((callback st.world).1,
         { chain := Except.ok (), world := (callback st.world).2 })
  else
    ((callback st.world).1,
     { chain := Except.ok (), world := (callback st.world).2 })

/-- Records of a line list: blank lines are skipped, parse failures yield
no record (the scan lemmas restrict to well-formed files, where none
occur). -/
def recordsOfLines {Rec : Type} (C : LineCodec Rec) (ls : List Content) : List Rec :=
  ls.filterMap (fun l => if isBlankLine l then none else (C.parse l).toOption)

/-- Records stored in one file's contents. -/
def contentRecords {Rec : Type} (C : LineCodec Rec) (content : Content) : List Rec :=
  recordsOfLines C (splitLines content)

/-- The record sequence a scan of the backing file visits: empty whenever
`fileExists` reports false. -/
def scannedRecords {Rec : Type} (C : LineCodec Rec) (fs : FileSys)
    (fname : String) : List Rec :=
  if fileExists fs fname then contentRecords C ((fsRead fs fname).getD []) else []

/-- Every non-blank line of the list parses. -/
def wellFormedLines {Rec : Type} (C : LineCodec Rec) (ls : List Content) : Bool :=
  ls.all (fun l => isBlankLine l || (C.parse l).isOk)

/-- Every non-blank line of the backing file parses. -/
def wellFormedAt {Rec : Type} (C : LineCodec Rec) (fs : FileSys)
    (fname : String) : Bool :=
  wellFormedLines C (splitLines ((fsRead fs fname).getD []))

/-- The update-mode image of the scanned records: matched records are
replaced by the new record, others kept, positions unchanged. -/
def mappedRecords {Rec : Type} (p : Rec → Bool) (n : Rec) (rs : List Rec) : List Rec :=
  rs.map (fun r => if p r then n else r)

/-- The delete-mode image of the scanned records: matched records dropped,
others kept in order. -/
def keptRecords {Rec : Type} (p : Rec → Bool) (rs : List Rec) : List Rec :=
  rs.filter (fun r => !p r)

/-- The ndjson image of a record list: each record's line followed by a
newline, concatenated. -/
def ndjsonList {Rec : Type} (C : LineCodec Rec) : List Rec → Content
  | [] => []
  | r :: rest => C.stringify r ++ '\n' :: ndjsonList C rest

/-- One-record-at-a-time appends to the temp file, as the replace-protocol
scan performs them. -/
def addRecordsFold {Rec : Type} (C : LineCodec Rec) (fs : FileSys) (tmp : String)
    (rs : List Rec) : FileSys :=
  rs.foldl (fun a r => addRecord C a tmp r) fs

/-- The filesystem state after each single-record append of the
replace-protocol scan. -/
def appendTrace {Rec : Type} (C : LineCodec Rec) (fs : FileSys) (tmp : String) :
    List Rec → List FileSys
  | [] => []
  | r :: rest =>
    addRecord C fs tmp r :: appendTrace C (addRecord C fs tmp r) tmp rest

/-- Failure-injection trace of `updateRecords`: the filesystem state
before any step and after each filesystem call (temp-file truncation,
each single-record temp append, then — when at least one record was
scanned — the backing-file unlink and the rename).  Injecting a failure
at a point means stopping with that state on disk. -/
def updateTraceStates {Rec : Type} (C : LineCodec Rec) (fs : FileSys)
    (fname : String) (p : Rec → Bool) (n : Rec) : List FileSys :=
  let tmp := tmpName fname
  let s1 := deleteAllRecords fs tmp
  let rs := scannedRecords C s1 fname
  let states := appendTrace C s1 tmp (mappedRecords p n rs)
  let s2 := states.getLastD s1
  let base := fs :: s1 :: states
  if rs.isEmpty then base
  else
    let s3 :=
      match deleteFile s2 fname with
      | Except.ok t => t
      | Except.error _ => s2
    match renameFile s3 tmp fname with
    | Except.ok s4 => base ++ [s3, s4]
    | Except.error _ => base ++ [s3]

/-- Failure-injection trace of `deleteRecords`, built like
`updateTraceStates`; in delete mode only rejected records are appended,
the swap runs only when some record matched, and otherwise the final
step is the temp-file unlink. -/
def deleteTraceStates {Rec : Type} (C : LineCodec Rec) (fs : FileSys)
    (fname : String) (p : Rec → Bool) : List FileSys :=
  let tmp := tmpName fname
  let s1 := deleteAllRecords fs tmp
  let rs := scannedRecords C s1 fname
  let states := appendTrace C s1 tmp (keptRecords p rs)
  let s2 := states.getLastD s1
  let base := fs :: s1 :: states
  if rs.any p then
    let s3 :=
      match deleteFile s2 fname with
      | Except.ok t => t
      | Except.error _ => s2
    match renameFile s3 tmp fname with
    | Except.ok s4 => base ++ [s3, s4]
    | Except.error _ => base ++ [s3]
  else
    base ++
      [match deleteFile s2 tmp with
       | Except.ok t => t
       | Except.error _ => s2]

/-- A concrete serialized line: `n` is encoded as `n + 1` copies of `x`. -/
def unaryStr (n : Nat) : Content := List.replicate (n + 1) 'x'

/-- Parser inverting `unaryStr`; anything else is a parse error. -/
def unaryParse (l : Content) : Except String Nat :=
  if !l.isEmpty && l.all (fun c => c == 'x') then Except.ok (l.length - 1)
  else Except.error "unexpected token"

/-- A concrete lawful codec on `Nat`, used to evaluate the theorems on
explicit stores. -/
def unaryCodec : LineCodec Nat where
  stringify := unaryStr
  parse := unaryParse
  noNewline := by
    intro r h
    rw [unaryStr, List.mem_replicate] at h
    exact absurd h.2 (by decide)
  nonBlank := by
    intro r
    rw [unaryStr, List.replicate_succ, isBlankLine, List.all_cons]
    rw [show Char.isWhitespace 'x' = false from by decide]
    exact Bool.false_and _
  roundTrip := by
    intro r
    have h1 : (unaryStr r).isEmpty = false := by
      rw [unaryStr, List.replicate_succ]
      rfl
    have h2 : (unaryStr r).all (fun c => c == 'x') = true := by
      rw [List.all_eq_true]
      intro c hc
      rw [unaryStr, List.mem_replicate] at hc
      rw [hc.2]
      rfl
    rw [unaryParse, h1, h2]
    simp [unaryStr, List.length_replicate]

/-- A store whose backing file `"db"` holds one record (`0`) followed by a
trailing newline. -/
def db1 : FileSys := { files := [("db", ['x', '\n'])], badStat := [] }

/-- A store whose backing file `"db"` holds one record and a trailing
blank line, so its bytes are not in the canonical rewritten form. -/
def db2 : FileSys := { files := [("db", ['x', '\n', '\n'])], badStat := [] }

/-- An empty filesystem: no backing file. -/
def db0 : FileSys := { files := [], badStat := [] }

/-- A store whose backing file `"db"` exists with empty contents. -/
def dbE : FileSys := { files := [("db", [])], badStat := [] }

/-- A store whose backing file `"db"` exists (with unparseable contents)
but whose `stat` fails, e.g. with a permission error. -/
def dbBad : FileSys := { files := [("db", ['?'])], badStat := ["db"] }

/-! Basic lemmas about the association-list filesystem. -/

theorem lookupFile_setFile_self (l : List (String × Content)) (name : String)
    (c : Content) : lookupFile (setFile l name c) name = some c := by
  induction l with
  | nil => simp [setFile, lookupFile]
  | cons e rest ih =>
    by_cases h : e.1 = name
    · simp [setFile, h, lookupFile]
    · simp [setFile, h, lookupFile, ih]

theorem lookupFile_setFile_ne (l : List (String × Content)) (name x : String)
    (c : Content) (h : x ≠ name) :
    lookupFile (setFile l name c) x = lookupFile l x := by
  induction l with
  | nil => simp [setFile, lookupFile, Ne.symm h]
  | cons e rest ih =>
    by_cases he : e.1 = name
    · subst he
      simp [setFile, lookupFile, Ne.symm h]
    · by_cases hx : e.1 = x
      · simp [setFile, he, lookupFile, hx, h]
      · simp [setFile, he, lookupFile, hx, ih]

theorem lookupFile_removeFile_self (l : List (String × Content)) (name : String) :
    lookupFile (removeFile l name) name = none := by
  induction l with
  | nil => simp [removeFile, lookupFile]
  | cons e rest ih =>
    by_cases h : e.1 = name
    · simp [removeFile, h, ih]
    · simp [removeFile, h, lookupFile, ih]

theorem lookupFile_removeFile_ne (l : List (String × Content)) (name x : String)
    (h : x ≠ name) : lookupFile (removeFile l name) x = lookupFile l x := by
  induction l with
  | nil => simp [removeFile]
  | cons e rest ih =>
    by_cases he : e.1 = name
    · subst he
      simp [removeFile, lookupFile, Ne.symm h, ih]
    · by_cases hx : e.1 = x
      · simp [removeFile, he, lookupFile, hx, h]
      · simp [removeFile, he, lookupFile, hx, ih]

theorem tmpName_ne (fname : String) : tmpName fname ≠ fname := by
  intro h
  have hlen := congrArg String.length h
  rw [tmpName, String.length_append] at hlen
  have h11 : (".tmp.ndjson" : String).length = 11 := rfl
  rw [h11] at hlen
  omega

/-! Reading through the filesystem operations. -/

theorem badStat_writeFile (fs : FileSys) (a : String) (c : Content) (b : Bool) :
    (writeFile fs a c b).badStat = fs.badStat := rfl

theorem fsRead_writeFile_self (fs : FileSys) (a : String) (c : Content) (b : Bool) :
    fsRead (writeFile fs a c b) a =
      some (if b then (fsRead fs a).getD [] ++ c else c) := by
  rw [writeFile, fsRead]
  by_cases hb : b <;> simp [hb, lookupFile_setFile_self, fsRead]

theorem fsRead_writeFile_ne (fs : FileSys) (a x : String) (c : Content) (b : Bool)
    (h : x ≠ a) : fsRead (writeFile fs a c b) x = fsRead fs x := by
  rw [writeFile, fsRead, fsRead]
  exact lookupFile_setFile_ne _ _ _ _ h

theorem deleteFile_of_isSome (fs : FileSys) (a : String) (c : Content)
    (h : fsRead fs a = some c) :
    deleteFile fs a = Except.ok { fs with files := removeFile fs.files a } := by
  rw [deleteFile, h]

theorem renameFile_of_isSome (fs : FileSys) (old new : String) (c : Content)
    (h : fsRead fs old = some c) :
    renameFile fs old new =
      Except.ok { fs with files := setFile (removeFile fs.files old) new c } := by
  rw [renameFile, h]

theorem fileExists_eq_true (fs : FileSys) (a : String) :
    fileExists fs a = true ↔ a ∉ fs.badStat ∧ (fsRead fs a).isSome = true := by
  rw [fileExists, fsStat]
  by_cases hb : a ∈ fs.badStat
  · simp [hb]
  · simp only [hb, if_false]
    cases h : fsRead fs a <;> simp [hb]

theorem fileExists_congr (fs fs' : FileSys) (a : String)
    (h1 : fsRead fs' a = fsRead fs a) (h2 : fs'.badStat = fs.badStat) :
    fileExists fs' a = fileExists fs a := by
  rw [fileExists, fileExists, fsStat, fsStat, h1, h2]

theorem scannedRecords_congr {Rec : Type} (C : LineCodec Rec) (fs fs' : FileSys)
    (a : String) (h1 : fsRead fs' a = fsRead fs a) (h2 : fs'.badStat = fs.badStat) :
    scannedRecords C fs' a = scannedRecords C fs a := by
  rw [scannedRecords, scannedRecords, fileExists_congr fs fs' a h1 h2, h1]

theorem wellFormedAt_congr {Rec : Type} (C : LineCodec Rec) (fs fs' : FileSys)
    (a : String) (h1 : fsRead fs' a = fsRead fs a) :
    wellFormedAt C fs' a = wellFormedAt C fs a := by
  rw [wellFormedAt, wellFormedAt, h1]

/-! Lines of serialized record lists. -/

theorem splitLines_ne_nil (c : Content) : splitLines c ≠ [] := by
  induction c with
  | nil => simp [splitLines]
  | cons ch rest ih =>
    rw [splitLines]
    by_cases h : ch = '\n'
    · simp [h]
    · simp only [h, if_false]
      cases hs : splitLines rest <;> simp

theorem splitLines_line_append (l rest : Content) (h : '\n' ∉ l) :
    splitLines (l ++ '\n' :: rest) = l :: splitLines rest := by
  induction l with
  | nil => simp [splitLines]
  | cons c lt ih =>
    have hc : c ≠ '\n' := fun hc => h (hc ▸ List.mem_cons_self c lt)
    have hlt : '\n' ∉ lt := fun hm => h (List.mem_cons_of_mem c hm)
    rw [List.cons_append, splitLines]
    simp only [hc, if_false]
    rw [ih hlt]

theorem splitLines_ndjsonList {Rec : Type} (C : LineCodec Rec) (rs : List Rec) :
    splitLines (ndjsonList C rs) = rs.map C.stringify ++ [[]] := by
  induction rs with
  | nil => simp [ndjsonList, splitLines]
  | cons r rest ih =>
    rw [ndjsonList, splitLines_line_append _ _ (C.noNewline r), ih]
    simp

theorem recordsOfLines_nil {Rec : Type} (C : LineCodec Rec) :
    recordsOfLines C [] = [] := rfl

theorem recordsOfLines_map_stringify {Rec : Type} (C : LineCodec Rec)
    (rs : List Rec) :
    recordsOfLines C (rs.map C.stringify ++ [[]]) = rs := by
  induction rs with
  | nil => simp [recordsOfLines, isBlankLine]
  | cons r rest ih =>
    rw [recordsOfLines] at ih ⊢
    rw [List.map_cons, List.cons_append, List.filterMap_cons]
    simp only [C.nonBlank r, C.roundTrip r]
    rw [ih]
    rfl

theorem contentRecords_ndjsonList {Rec : Type} (C : LineCodec Rec)
    (rs : List Rec) : contentRecords C (ndjsonList C rs) = rs := by
  rw [contentRecords, splitLines_ndjsonList, recordsOfLines_map_stringify]

theorem wellFormedLines_ndjsonList {Rec : Type} (C : LineCodec Rec)
    (rs : List Rec) :
    wellFormedLines C (splitLines (ndjsonList C rs)) = true := by
  rw [splitLines_ndjsonList, wellFormedLines, List.all_eq_true]
  intro l hl
  rw [List.mem_append] at hl
  cases hl with
  | inl h =>
    rw [List.mem_map] at h
    obtain ⟨r, _, rfl⟩ := h
    have hok : (C.parse (C.stringify r)).isOk = true := by
      rw [C.roundTrip r]
      rfl
    simp [hok]
  | inr h =>
    simp at h
    simp [h, isBlankLine]

/-! The scan loop when the visitor never stops early. -/

theorem scanLines_noStop {Rec σ : Type} (C : LineCodec Rec)
    (f : σ → Rec → σ × Bool) (hc : ∀ s r, (f s r).2 = true) (ls : List Content)
    (s : σ) (hwf : wellFormedLines C ls = true) :
    scanLines C f ls s =
      Except.ok ((recordsOfLines C ls).foldl (fun a r => (f a r).1) s) := by
  induction ls generalizing s with
  | nil => rfl
  | cons l rest ih =>
    rw [wellFormedLines, List.all_cons, Bool.and_eq_true] at hwf
    by_cases hb : isBlankLine l = true
    · have h1 : scanLines C f (l :: rest) s = scanLines C f rest s := by
        rw [scanLines, if_pos hb]
      have h2 : recordsOfLines C (l :: rest) = recordsOfLines C rest := by
        rw [recordsOfLines, recordsOfLines, List.filterMap_cons, if_pos hb]
      rw [h1, h2]
      exact ih s hwf.2
    · obtain ⟨r, hp⟩ : ∃ r, C.parse l = Except.ok r := by
        have hor := hwf.1
        rw [Bool.or_eq_true] at hor
        cases hor with
        | inl h => exact absurd h hb
        | inr h =>
          cases hparse : C.parse l with
          | error e =>
            rw [hparse] at h
            simp [Except.isOk, Except.toBool] at h
          | ok r => exact ⟨r, rfl⟩
      have h1 : scanLines C f (l :: rest) s = scanLines C f rest (f s r).1 := by
        rw [scanLines, if_neg hb, hp]
        simp [hc s r]
      have h2 : recordsOfLines C (l :: rest) = r :: recordsOfLines C rest := by
        rw [recordsOfLines, recordsOfLines, List.filterMap_cons, if_neg hb, hp]
        rfl
      rw [h1, h2, List.foldl_cons]
      exact ih _ hwf.2

/-! Folds used by the store operations. -/

theorem foldl_push {α : Type} (rs : List α) :
    ∀ s : List α, rs.foldl (fun a r => a ++ [r]) s = s ++ rs := by
  induction rs with
  | nil => simp
  | cons r rest ih =>
    intro s
    rw [List.foldl_cons, ih]
    simp

theorem foldl_ndjson {Rec : Type} (C : LineCodec Rec) (rs : List Rec) :
    ∀ acc : Content,
      rs.foldl (fun str r => str ++ C.stringify r ++ ['\n']) acc =
        acc ++ ndjsonList C rs := by
  induction rs with
  | nil => simp [ndjsonList]
  | cons r rest ih =>
    intro acc
    rw [List.foldl_cons, ih, ndjsonList]
    simp

theorem addRecords_eq_writeFile {Rec : Type} (C : LineCodec Rec) (fs : FileSys)
    (fname : String) (rs : List Rec) :
    addRecords C fs fname rs = writeFile fs fname (ndjsonList C rs) true := by
  rw [addRecords, foldl_ndjson]
  rfl

theorem addRecord_eq_writeFile {Rec : Type} (C : LineCodec Rec) (fs : FileSys)
    (fname : String) (r : Rec) :
    addRecord C fs fname r =
      writeFile fs fname (C.stringify r ++ ['\n']) true := by
  rw [addRecord, addRecords_eq_writeFile, ndjsonList, ndjsonList]

theorem foldl_updateStep {Rec : Type} (C : LineCodec Rec) (tmp : String)
    (p : Rec → Bool) (n : Rec) (rs : List Rec) :
    ∀ (fs0 : FileSys) (b0 : Bool),
      rs.foldl
          (fun (st : FileSys × Bool) r =>
            ((addRecord C st.1 tmp (if p r then n else r), true), true).1)
          (fs0, b0) =
        (addRecordsFold C fs0 tmp (mappedRecords p n rs), b0 || !rs.isEmpty) := by
  induction rs with
  | nil => intro fs0 b0; simp [mappedRecords, addRecordsFold]
  | cons r rest ih =>
    intro fs0 b0
    rw [List.foldl_cons, ih]
    have h1 : addRecordsFold C fs0 tmp (mappedRecords p n (r :: rest)) =
        addRecordsFold C (addRecord C fs0 tmp (if p r then n else r)) tmp
          (mappedRecords p n rest) := rfl
    rw [h1]
    simp

theorem foldl_deleteStep {Rec : Type} (C : LineCodec Rec) (tmp : String)
    (p : Rec → Bool) (rs : List Rec) :
    ∀ (fs0 : FileSys) (b0 : Bool),
      rs.foldl
          (fun (st : FileSys × Bool) r =>
            (if p r then ((st.1, true), true)
             else ((addRecord C st.1 tmp r, st.2), true)).1)
          (fs0, b0) =
        (addRecordsFold C fs0 tmp (keptRecords p rs), b0 || rs.any p) := by
  induction rs with
  | nil => intro fs0 b0; simp [keptRecords, addRecordsFold]
  | cons r rest ih =>
    intro fs0 b0
    by_cases hp : p r = true
    · rw [List.foldl_cons]
      simp only [hp, if_true]
      rw [ih]
      have h1 : keptRecords p (r :: rest) = keptRecords p rest := by
        rw [keptRecords, keptRecords, List.filter_cons]
        simp [hp]
      rw [h1]
      simp [List.any_cons, hp]
    · have hp' : p r = false := by rwa [Bool.not_eq_true] at hp
      rw [List.foldl_cons]
      simp only [hp', Bool.false_eq_true, if_false]
      rw [ih]
      have h1 : keptRecords p (r :: rest) = r :: keptRecords p rest := by
        rw [keptRecords, keptRecords, List.filter_cons]
        simp [hp']
      rw [h1]
      have h2 : addRecordsFold C fs0 tmp (r :: keptRecords p rest) =
          addRecordsFold C (addRecord C fs0 tmp r) tmp (keptRecords p rest) := rfl
      rw [h2]
      simp [List.any_cons, hp']

theorem badStat_addRecordsFold {Rec : Type} (C : LineCodec Rec) (tmp : String)
    (rs : List Rec) :
    ∀ fs : FileSys, (addRecordsFold C fs tmp rs).badStat = fs.badStat := by
  induction rs with
  | nil => intro fs; rfl
  | cons r rest ih =>
    intro fs
    rw [addRecordsFold, List.foldl_cons]
    exact ih _

theorem fsRead_addRecordsFold_ne {Rec : Type} (C : LineCodec Rec) (tmp x : String)
    (rs : List Rec) (h : x ≠ tmp) :
    ∀ fs : FileSys, fsRead (addRecordsFold C fs tmp rs) x = fsRead fs x := by
  induction rs with
  | nil => intro fs; rfl
  | cons r rest ih =>
    intro fs
    have h1 : fsRead (addRecordsFold C fs tmp (r :: rest)) x =
        fsRead (addRecordsFold C (addRecord C fs tmp r) tmp rest) x := rfl
    rw [h1, ih (addRecord C fs tmp r), addRecord_eq_writeFile,
      fsRead_writeFile_ne _ _ _ _ _ h]

theorem fsRead_addRecordsFold_self {Rec : Type} (C : LineCodec Rec)
    (tmp : String) (rs : List Rec) :
    ∀ (fs : FileSys) (c0 : Content), fsRead fs tmp = some c0 →
      fsRead (addRecordsFold C fs tmp rs) tmp = some (c0 ++ ndjsonList C rs) := by
  induction rs with
  | nil =>
    intro fs c0 h0
    rw [show addRecordsFold C fs tmp [] = fs from rfl, h0, ndjsonList]
    simp
  | cons r rest ih =>
    intro fs c0 h0
    have h1 : fsRead (addRecordsFold C fs tmp (r :: rest)) tmp =
        fsRead (addRecordsFold C (addRecord C fs tmp r) tmp rest) tmp := rfl
    have h2 : fsRead (addRecord C fs tmp r) tmp =
        some (c0 ++ (C.stringify r ++ ['\n'])) := by
      rw [addRecord_eq_writeFile, fsRead_writeFile_self, h0]
      rfl
    rw [h1, ih _ _ h2, ndjsonList]
    simp

theorem appendTrace_mem_fname {Rec : Type} (C : LineCodec Rec) (tmp x : String)
    (rs : List Rec) (h : x ≠ tmp) :
    ∀ (fs : FileSys) (s : FileSys), s ∈ appendTrace C fs tmp rs →
      fsRead s x = fsRead fs x := by
  induction rs with
  | nil => intro fs s hs; simp [appendTrace] at hs
  | cons r rest ih =>
    intro fs s hs
    rw [appendTrace, List.mem_cons] at hs
    cases hs with
    | inl he =>
      rw [he, addRecord_eq_writeFile, fsRead_writeFile_ne _ _ _ _ _ h]
    | inr hm =>
      rw [ih _ s hm, addRecord_eq_writeFile, fsRead_writeFile_ne _ _ _ _ _ h]

theorem appendTrace_mem_tmp {Rec : Type} (C : LineCodec Rec) (tmp : String)
    (rs : List Rec) :
    ∀ (fs : FileSys) (s : FileSys), s ∈ appendTrace C fs tmp rs →
      (fsRead s tmp).isSome = true := by
  induction rs with
  | nil => intro fs s hs; simp [appendTrace] at hs
  | cons r rest ih =>
    intro fs s hs
    rw [appendTrace, List.mem_cons] at hs
    cases hs with
    | inl he =>
      rw [he, addRecord_eq_writeFile, fsRead_writeFile_self]
      rfl
    | inr hm => exact ih _ s hm

theorem appendTrace_getLastD {Rec : Type} (C : LineCodec Rec) (tmp : String)
    (rs : List Rec) :
    ∀ fs : FileSys,
      (appendTrace C fs tmp rs).getLastD fs = addRecordsFold C fs tmp rs := by
  induction rs with
  | nil => intro fs; rfl
  | cons r rest ih =>
    intro fs
    rw [appendTrace, addRecordsFold, List.foldl_cons, List.getLastD_cons, ih]
    rfl

theorem getLastD_append_singleton {α : Type} (l : List α) (a d : α) :
    (l ++ [a]).getLastD d = a := by
  induction l generalizing d with
  | nil => rfl
  | cons x rest ih =>
    rw [List.cons_append, List.getLastD_cons]
    exact ih x

theorem take_length_append {α : Type} (l1 l2 : List α) :
    (l1 ++ l2).take l1.length = l1 := by
  induction l1 with
  | nil => rfl
  | cons x rest ih =>
    rw [List.cons_append, List.length_cons, List.take_succ_cons, ih]

theorem foldl_collect {α : Type} (rs : List α) :
    ∀ s : List α,
      rs.foldl (fun (a : List α) r => ((a ++ [r], true) : List α × Bool).1) s =
        s ++ rs := by
  induction rs with
  | nil => simp
  | cons r rest ih =>
    intro s
    rw [List.foldl_cons, ih]
    simp

theorem getAllRecords_eq {Rec : Type} (C : LineCodec Rec) (fs : FileSys)
    (fname : String) (hwf : wellFormedAt C fs fname = true) :
    getAllRecords C fs fname = Except.ok (scannedRecords C fs fname) := by
  rw [wellFormedAt] at hwf
  rw [getAllRecords, forEachRecord, scannedRecords]
  by_cases hex : fileExists fs fname = true
  · rw [if_pos hex, if_pos hex, scanLines_noStop C _ (fun s r => rfl) _ _ hwf,
      foldl_collect, contentRecords]
    simp
  · rw [if_neg hex, if_neg hex]

theorem getAllRecords_of_ndjson {Rec : Type} (C : LineCodec Rec) (fs : FileSys)
    (fname : String) (rs : List Rec)
    (h1 : fsRead fs fname = some (ndjsonList C rs)) (h2 : fname ∉ fs.badStat) :
    getAllRecords C fs fname = Except.ok rs := by
  have hex : fileExists fs fname = true :=
    (fileExists_eq_true fs fname).mpr ⟨h2, by rw [h1]; rfl⟩
  have hwf : wellFormedAt C fs fname = true := by
    rw [wellFormedAt, h1]
    exact wellFormedLines_ndjsonList C rs
  rw [getAllRecords_eq C fs fname hwf, scannedRecords, if_pos hex, h1,
    show (some (ndjsonList C rs)).getD ([] : Content) = ndjsonList C rs from rfl,
    contentRecords_ndjsonList]

theorem updateScan_eq {Rec : Type} (C : LineCodec Rec) (fs1 : FileSys)
    (fname : String) (p : Rec → Bool) (n : Rec) (S : Content)
    (hex1 : fileExists fs1 fname = true) (hS : fsRead fs1 fname = some S)
    (hwfS : wellFormedLines C (splitLines S) = true) :
    forEachRecord C fs1 fname
        (fun (st : FileSys × Bool) record =>
          ((addRecord C st.1 (tmpName fname)
              (if p record then n else record), true), true))
        (fs1, false) =
      Except.ok
        (addRecordsFold C fs1 (tmpName fname)
            (mappedRecords p n (contentRecords C S)),
          !(contentRecords C S).isEmpty) := by
  rw [forEachRecord, if_pos hex1, hS,
    show (some S).getD ([] : Content) = S from rfl,
    scanLines_noStop C _ (fun s r => rfl) _ _ hwfS,
    foldl_updateStep, contentRecords]
  simp

theorem deleteScan_eq {Rec : Type} (C : LineCodec Rec) (fs1 : FileSys)
    (fname : String) (p : Rec → Bool) (S : Content)
    (hex1 : fileExists fs1 fname = true) (hS : fsRead fs1 fname = some S)
    (hwfS : wellFormedLines C (splitLines S) = true) :
    forEachRecord C fs1 fname
        (fun (st : FileSys × Bool) record =>
          if p record then ((st.1, true), true)
          else ((addRecord C st.1 (tmpName fname) record, st.2), true))
        (fs1, false) =
      Except.ok
        (addRecordsFold C fs1 (tmpName fname)
            (keptRecords p (contentRecords C S)),
          (contentRecords C S).any p) := by
  rw [forEachRecord, if_pos hex1, hS,
    show (some S).getD ([] : Content) = S from rfl,
    scanLines_noStop C _
      (fun s r => by by_cases h : p r = true <;> simp [h]) _ _ hwfS,
    foldl_deleteStep, contentRecords]
  simp

theorem updateRecords_ok_of_swap {Rec : Type} (C : LineCodec Rec) (fs : FileSys)
    (fname : String) (p : Rec → Bool) (n : Rec) (fs2 fs3 fs4 : FileSys)
    (hscan : forEachRecord C (deleteAllRecords fs (tmpName fname)) fname
        (fun (st : FileSys × Bool) record =>
          ((addRecord C st.1 (tmpName fname)
              (if p record then n else record), true), true))
        (deleteAllRecords fs (tmpName fname), false) = Except.ok (fs2, true))
    (hdel : deleteFile fs2 fname = Except.ok fs3)
    (hren : renameFile fs3 (tmpName fname) fname = Except.ok fs4) :
    updateRecords C fs fname p n = Except.ok fs4 := by
  simp only [updateRecords]
  rw [hscan]
  show (match renameFile
      (match deleteFile fs2 fname with
       | Except.ok t => t
       | Except.error _ => fs2) (tmpName fname) fname with
    | Except.ok t => Except.ok t
    | Except.error e => Except.error (DbError.fsError e)) = Except.ok fs4
  rw [hdel]
  show (match renameFile fs3 (tmpName fname) fname with
    | Except.ok t => Except.ok t
    | Except.error e => Except.error (DbError.fsError e)) = Except.ok fs4
  rw [hren]

theorem updateRecords_ok_of_noSwap {Rec : Type} (C : LineCodec Rec)
    (fs : FileSys) (fname : String) (p : Rec → Bool) (n : Rec) (fs2 : FileSys)
    (hscan : forEachRecord C (deleteAllRecords fs (tmpName fname)) fname
        (fun (st : FileSys × Bool) record =>
          ((addRecord C st.1 (tmpName fname)
              (if p record then n else record), true), true))
        (deleteAllRecords fs (tmpName fname), false) = Except.ok (fs2, false)) :
    updateRecords C fs fname p n = Except.ok fs2 := by
  simp only [updateRecords]
  rw [hscan]
  rfl

theorem deleteRecords_ok_of_swap {Rec : Type} (C : LineCodec Rec) (fs : FileSys)
    (fname : String) (p : Rec → Bool) (fs2 fs3 fs4 : FileSys)
    (hscan : forEachRecord C (deleteAllRecords fs (tmpName fname)) fname
        (fun (st : FileSys × Bool) record =>
          if p record then ((st.1, true), true)
          else ((addRecord C st.1 (tmpName fname) record, st.2), true))
        (deleteAllRecords fs (tmpName fname), false) = Except.ok (fs2, true))
    (hdel : deleteFile fs2 fname = Except.ok fs3)
    (hren : renameFile fs3 (tmpName fname) fname = Except.ok fs4) :
    deleteRecords C fs fname p = Except.ok fs4 := by
  simp only [deleteRecords]
  rw [hscan]
  show (match renameFile
      (match deleteFile fs2 fname with
       | Except.ok t => t
       | Except.error _ => fs2) (tmpName fname) fname with
    | Except.ok t => Except.ok t
    | Except.error _ => Except.error DbError.couldNotDeleteEntry) = Except.ok fs4
  rw [hdel]
  show (match renameFile fs3 (tmpName fname) fname with
    | Except.ok t => Except.ok t
    | Except.error _ => Except.error DbError.couldNotDeleteEntry) = Except.ok fs4
  rw [hren]

theorem deleteRecords_ok_of_noSwap {Rec : Type} (C : LineCodec Rec)
    (fs : FileSys) (fname : String) (p : Rec → Bool) (fs2 t : FileSys)
    (hscan : forEachRecord C (deleteAllRecords fs (tmpName fname)) fname
        (fun (st : FileSys × Bool) record =>
          if p record then ((st.1, true), true)
          else ((addRecord C st.1 (tmpName fname) record, st.2), true))
        (deleteAllRecords fs (tmpName fname), false) = Except.ok (fs2, false))
    (hdelTmp : deleteFile fs2 (tmpName fname) = Except.ok t) :
    deleteRecords C fs fname p = Except.ok t := by
  simp only [deleteRecords]
  rw [hscan]
  show (match deleteFile fs2 (tmpName fname) with
    | Except.ok t => Except.ok t
    | Except.error _ => Except.ok fs2) = Except.ok t
  rw [hdelTmp]

theorem deleteFile_full (fs : FileSys) (a : String) (c : Content)
    (h : fsRead fs a = some c) :
    ∃ fs', deleteFile fs a = Except.ok fs' ∧ fsRead fs' a = none ∧
      fs'.badStat = fs.badStat ∧ ∀ x, x ≠ a → fsRead fs' x = fsRead fs x := by
  refine ⟨_, deleteFile_of_isSome fs a c h, ?_, rfl, ?_⟩
  · exact lookupFile_removeFile_self _ _
  · intro x hx
    exact lookupFile_removeFile_ne _ _ _ hx

theorem renameFile_full (fs : FileSys) (old new : String) (c : Content)
    (h : fsRead fs old = some c) (hne : new ≠ old) :
    ∃ fs', renameFile fs old new = Except.ok fs' ∧ fsRead fs' new = some c ∧
      fsRead fs' old = none ∧ fs'.badStat = fs.badStat ∧
      ∀ x, x ≠ new → x ≠ old → fsRead fs' x = fsRead fs x := by
  refine ⟨_, renameFile_of_isSome fs old new c h, ?_, ?_, rfl, ?_⟩
  · exact lookupFile_setFile_self _ _ _
  · rw [show fsRead { fs with files := setFile (removeFile fs.files old) new c }
        old = lookupFile (setFile (removeFile fs.files old) new c) old from rfl,
      lookupFile_setFile_ne _ _ _ _ hne.symm]
    exact lookupFile_removeFile_self _ _
  · intro x hxn hxo
    rw [show fsRead { fs with files := setFile (removeFile fs.files old) new c }
        x = lookupFile (setFile (removeFile fs.files old) new c) x from rfl,
      lookupFile_setFile_ne _ _ _ _ hxn]
    exact lookupFile_removeFile_ne _ _ _ hxo

theorem updateRecords_spec {Rec : Type} (C : LineCodec Rec) (fs : FileSys)
    (fname : String) (p : Rec → Bool) (n : Rec)
    (hwf : wellFormedAt C fs fname = true) :
    ∃ fs', updateRecords C fs fname p n = Except.ok fs' ∧
      fs'.badStat = fs.badStat ∧
      (scannedRecords C fs fname = [] →
        fsRead fs' fname = fsRead fs fname ∧
        fsRead fs' (tmpName fname) = some []) ∧
      (scannedRecords C fs fname ≠ [] →
        fsRead fs' fname =
          some (ndjsonList C (mappedRecords p n (scannedRecords C fs fname))) ∧
        fsRead fs' (tmpName fname) = none ∧ fname ∉ fs.badStat) := by
  have hne : fname ≠ tmpName fname := (tmpName_ne fname).symm
  have hr1 : fsRead (deleteAllRecords fs (tmpName fname)) fname = fsRead fs fname := by
    rw [deleteAllRecords, fsRead_writeFile_ne _ _ _ _ _ hne]
  have ht1 : fsRead (deleteAllRecords fs (tmpName fname)) (tmpName fname) = some [] := by
    rw [deleteAllRecords, fsRead_writeFile_self]
    rfl
  have hb1 : (deleteAllRecords fs (tmpName fname)).badStat = fs.badStat := rfl
  have hex1 : fileExists (deleteAllRecords fs (tmpName fname)) fname
      = fileExists fs fname := fileExists_congr fs _ fname hr1 hb1
  by_cases hex : fileExists fs fname = true
  · obtain ⟨hnb, hsome⟩ := (fileExists_eq_true fs fname).mp hex
    obtain ⟨S, hS⟩ := Option.isSome_iff_exists.mp hsome
    have hex1' : fileExists (deleteAllRecords fs (tmpName fname)) fname = true := by
      rw [hex1]; exact hex
    have hS1 : fsRead (deleteAllRecords fs (tmpName fname)) fname = some S := by
      rw [hr1]; exact hS
    have hwfS : wellFormedLines C (splitLines S) = true := by
      rw [wellFormedAt, hS] at hwf
      exact hwf
    have hrs : scannedRecords C fs fname = contentRecords C S := by
      rw [scannedRecords, if_pos hex, hS]
      rfl
    have hscan :=
      updateScan_eq C (deleteAllRecords fs (tmpName fname)) fname p n S hex1' hS1 hwfS
    by_cases hcs : contentRecords C S = []
    · rw [hcs] at hscan
      exact ⟨deleteAllRecords fs (tmpName fname),
        updateRecords_ok_of_noSwap C fs fname p n _ hscan, hb1,
        fun _ => ⟨hr1, ht1⟩, fun h2 => absurd (hrs.trans hcs) h2⟩
    · have hisE : (contentRecords C S).isEmpty = false := by
        cases h : contentRecords C S with
        | nil => exact absurd h hcs
        | cons a l => rfl
      rw [hisE, Bool.not_false] at hscan
      have ht2 : fsRead (addRecordsFold C (deleteAllRecords fs (tmpName fname))
            (tmpName fname) (mappedRecords p n (contentRecords C S))) (tmpName fname) =
          some (ndjsonList C (mappedRecords p n (contentRecords C S))) := by
        rw [fsRead_addRecordsFold_self C (tmpName fname) _ _ [] ht1, List.nil_append]
      have hr2 : fsRead (addRecordsFold C (deleteAllRecords fs (tmpName fname))
            (tmpName fname) (mappedRecords p n (contentRecords C S))) fname = some S := by
        rw [fsRead_addRecordsFold_ne C (tmpName fname) fname _ hne, hS1]
      have hb2 : (addRecordsFold C (deleteAllRecords fs (tmpName fname))
            (tmpName fname) (mappedRecords p n (contentRecords C S))).badStat =
          fs.badStat := by
        rw [badStat_addRecordsFold]
        exact hb1
      obtain ⟨fs2, hfs2⟩ :
          ∃ x, addRecordsFold C (deleteAllRecords fs (tmpName fname))
            (tmpName fname) (mappedRecords p n (contentRecords C S)) = x := ⟨_, rfl⟩
      rw [hfs2] at hscan ht2 hr2 hb2
      obtain ⟨fs3, hdel, hdn, hdb, hdo⟩ := deleteFile_full fs2 fname S hr2
      have ht3 : fsRead fs3 (tmpName fname) =
          some (ndjsonList C (mappedRecords p n (contentRecords C S))) := by
        rw [hdo _ (tmpName_ne fname)]
        exact ht2
      obtain ⟨fs4, hren, hr4, ht4, hb4, _⟩ :=
        renameFile_full fs3 (tmpName fname) fname _ ht3 hne
      refine ⟨fs4, updateRecords_ok_of_swap C fs fname p n fs2 fs3 fs4 hscan hdel hren,
        ?_, fun h => absurd (hrs.symm.trans h) hcs, fun _ => ?_⟩
      · rw [hb4, hdb, hb2]
      · rw [hrs]
        exact ⟨hr4, ht4, hnb⟩
  · have hrs : scannedRecords C fs fname = [] := by
      rw [scannedRecords, if_neg hex]
    have hfe : forEachRecord C (deleteAllRecords fs (tmpName fname)) fname
        (fun (st : FileSys × Bool) record =>
          ((addRecord C st.1 (tmpName fname)
              (if p record then n else record), true), true))
        (deleteAllRecords fs (tmpName fname), false) =
        Except.ok (deleteAllRecords fs (tmpName fname), false) := by
      rw [forEachRecord, hex1, if_neg hex]
    exact ⟨deleteAllRecords fs (tmpName fname),
      updateRecords_ok_of_noSwap C fs fname p n _ hfe, hb1,
      fun _ => ⟨hr1, ht1⟩, fun h2 => absurd hrs h2⟩

theorem deleteRecords_spec {Rec : Type} (C : LineCodec Rec) (fs : FileSys)
    (fname : String) (p : Rec → Bool)
    (hwf : wellFormedAt C fs fname = true) :
    ∃ fs', deleteRecords C fs fname p = Except.ok fs' ∧
      fs'.badStat = fs.badStat ∧
      fsRead fs' (tmpName fname) = none ∧
      ((scannedRecords C fs fname).any p = false →
        fsRead fs' fname = fsRead fs fname) ∧
      ((scannedRecords C fs fname).any p = true →
        fsRead fs' fname =
          some (ndjsonList C (keptRecords p (scannedRecords C fs fname))) ∧
        fname ∉ fs.badStat) := by
  have hne : fname ≠ tmpName fname := (tmpName_ne fname).symm
  have hr1 : fsRead (deleteAllRecords fs (tmpName fname)) fname = fsRead fs fname := by
    rw [deleteAllRecords, fsRead_writeFile_ne _ _ _ _ _ hne]
  have ht1 : fsRead (deleteAllRecords fs (tmpName fname)) (tmpName fname) = some [] := by
    rw [deleteAllRecords, fsRead_writeFile_self]
    rfl
  have hb1 : (deleteAllRecords fs (tmpName fname)).badStat = fs.badStat := rfl
  have hex1 : fileExists (deleteAllRecords fs (tmpName fname)) fname
      = fileExists fs fname := fileExists_congr fs _ fname hr1 hb1
  by_cases hex : fileExists fs fname = true
  · obtain ⟨hnb, hsome⟩ := (fileExists_eq_true fs fname).mp hex
    obtain ⟨S, hS⟩ := Option.isSome_iff_exists.mp hsome
    have hex1' : fileExists (deleteAllRecords fs (tmpName fname)) fname = true := by
      rw [hex1]; exact hex
    have hS1 : fsRead (deleteAllRecords fs (tmpName fname)) fname = some S := by
      rw [hr1]; exact hS
    have hwfS : wellFormedLines C (splitLines S) = true := by
      rw [wellFormedAt, hS] at hwf
      exact hwf
    have hrs : scannedRecords C fs fname = contentRecords C S := by
      rw [scannedRecords, if_pos hex, hS]
      rfl
    have hscan :=
      deleteScan_eq C (deleteAllRecords fs (tmpName fname)) fname p S hex1' hS1 hwfS
    have ht2 : fsRead (addRecordsFold C (deleteAllRecords fs (tmpName fname))
          (tmpName fname) (keptRecords p (contentRecords C S))) (tmpName fname) =
        some (ndjsonList C (keptRecords p (contentRecords C S))) := by
      rw [fsRead_addRecordsFold_self C (tmpName fname) _ _ [] ht1, List.nil_append]
    have hr2 : fsRead (addRecordsFold C (deleteAllRecords fs (tmpName fname))
          (tmpName fname) (keptRecords p (contentRecords C S))) fname = some S := by
      rw [fsRead_addRecordsFold_ne C (tmpName fname) fname _ hne, hS1]
    have hb2 : (addRecordsFold C (deleteAllRecords fs (tmpName fname))
          (tmpName fname) (keptRecords p (contentRecords C S))).badStat =
        fs.badStat := by
      rw [badStat_addRecordsFold]
      exact hb1
    obtain ⟨fs2, hfs2⟩ :
        ∃ x, addRecordsFold C (deleteAllRecords fs (tmpName fname))
          (tmpName fname) (keptRecords p (contentRecords C S)) = x := ⟨_, rfl⟩
    rw [hfs2] at hscan ht2 hr2 hb2
    by_cases hany : (contentRecords C S).any p = true
    · rw [hany] at hscan
      obtain ⟨fs3, hdel, _, hdb, hdo⟩ := deleteFile_full fs2 fname S hr2
      have ht3 : fsRead fs3 (tmpName fname) =
          some (ndjsonList C (keptRecords p (contentRecords C S))) := by
        rw [hdo _ (tmpName_ne fname)]
        exact ht2
      obtain ⟨fs4, hren, hr4, ht4, hb4, _⟩ :=
        renameFile_full fs3 (tmpName fname) fname _ ht3 hne
      refine ⟨fs4, deleteRecords_ok_of_swap C fs fname p fs2 fs3 fs4 hscan hdel hren,
        ?_, ht4, fun h => ?_, fun _ => ?_⟩
      · rw [hb4, hdb, hb2]
      · rw [hrs] at h
        rw [h] at hany
        simp at hany
      · rw [hrs]
        exact ⟨hr4, hnb⟩
    · have hanyF : (contentRecords C S).any p = false := by
        rwa [Bool.not_eq_true] at hany
      rw [hanyF] at hscan
      obtain ⟨t, hdelT, htn, htb, hto⟩ :=
        deleteFile_full fs2 (tmpName fname) _ ht2
      refine ⟨t, deleteRecords_ok_of_noSwap C fs fname p fs2 t hscan hdelT,
        htb.trans hb2, htn, fun _ => ?_, fun h => ?_⟩
      · rw [hto fname hne, hr2, hS]
      · rw [hrs, hanyF] at h
        simp at h
  · have hrs : scannedRecords C fs fname = [] := by
      rw [scannedRecords, if_neg hex]
    have hfe : forEachRecord C (deleteAllRecords fs (tmpName fname)) fname
        (fun (st : FileSys × Bool) record =>
          if p record then ((st.1, true), true)
          else ((addRecord C st.1 (tmpName fname) record, st.2), true))
        (deleteAllRecords fs (tmpName fname), false) =
        Except.ok (deleteAllRecords fs (tmpName fname), false) := by
      rw [forEachRecord, hex1, if_neg hex]
    obtain ⟨t, hdelT, htn, htb, hto⟩ :=
      deleteFile_full (deleteAllRecords fs (tmpName fname)) (tmpName fname) _ ht1
    refine ⟨t, deleteRecords_ok_of_noSwap C fs fname p _ t hfe hdelT,
      htb.trans hb1, htn, fun _ => ?_, fun h => ?_⟩
    · rw [hto fname hne, hr1]
    · rw [hrs] at h
      simp at h

theorem appendTrace_length {Rec : Type} (C : LineCodec Rec) (tmp : String)
    (rs : List Rec) :
    ∀ fs : FileSys, (appendTrace C fs tmp rs).length = rs.length := by
  induction rs with
  | nil => intro fs; rfl
  | cons r rest ih =>
    intro fs
    rw [appendTrace, List.length_cons, List.length_cons, ih]

theorem matchOkFs (x y : FileSys) :
    (match Except.ok x with
     | Except.ok t => t
     | Except.error (_ : FsError) => y) = x := rfl

theorem updateTraceStates_of_empty {Rec : Type} (C : LineCodec Rec)
    (fs : FileSys) (fname : String) (p : Rec → Bool) (n : Rec)
    (hemp : scannedRecords C (deleteAllRecords fs (tmpName fname)) fname = []) :
    updateTraceStates C fs fname p n = [fs, deleteAllRecords fs (tmpName fname)] := by
  simp only [updateTraceStates]
  rw [hemp]
  rfl

theorem updateTraceStates_of_swap {Rec : Type} (C : LineCodec Rec)
    (fs : FileSys) (fname : String) (p : Rec → Bool) (n : Rec) (fs3 fs4 : FileSys)
    (hne0 : (scannedRecords C (deleteAllRecords fs (tmpName fname)) fname).isEmpty
      = false)
    (hdel : deleteFile
        ((appendTrace C (deleteAllRecords fs (tmpName fname)) (tmpName fname)
            (mappedRecords p n
              (scannedRecords C (deleteAllRecords fs (tmpName fname)) fname)))
          |>.getLastD (deleteAllRecords fs (tmpName fname))) fname =
      Except.ok fs3)
    (hren : renameFile fs3 (tmpName fname) fname = Except.ok fs4) :
    updateTraceStates C fs fname p n =
      (fs :: deleteAllRecords fs (tmpName fname) ::
        appendTrace C (deleteAllRecords fs (tmpName fname)) (tmpName fname)
          (mappedRecords p n
            (scannedRecords C (deleteAllRecords fs (tmpName fname)) fname)))
      ++ [fs3, fs4] := by
  simp only [updateTraceStates]
  rw [hne0, hdel]
  simp only [matchOkFs]
  rw [hren]
  rfl

theorem deleteTraceStates_of_noMatch {Rec : Type} (C : LineCodec Rec)
    (fs : FileSys) (fname : String) (p : Rec → Bool) (t : FileSys)
    (hany : (scannedRecords C (deleteAllRecords fs (tmpName fname)) fname).any p
      = false)
    (hdelT : deleteFile
        ((appendTrace C (deleteAllRecords fs (tmpName fname)) (tmpName fname)
            (keptRecords p
              (scannedRecords C (deleteAllRecords fs (tmpName fname)) fname)))
          |>.getLastD (deleteAllRecords fs (tmpName fname))) (tmpName fname) =
      Except.ok t) :
    deleteTraceStates C fs fname p =
      (fs :: deleteAllRecords fs (tmpName fname) ::
        appendTrace C (deleteAllRecords fs (tmpName fname)) (tmpName fname)
          (keptRecords p
            (scannedRecords C (deleteAllRecords fs (tmpName fname)) fname)))
      ++ [t] := by
  simp only [deleteTraceStates]
  rw [hany, hdelT]
  rfl

theorem deleteTraceStates_of_swap {Rec : Type} (C : LineCodec Rec)
    (fs : FileSys) (fname : String) (p : Rec → Bool) (fs3 fs4 : FileSys)
    (hany : (scannedRecords C (deleteAllRecords fs (tmpName fname)) fname).any p
      = true)
    (hdel : deleteFile
        ((appendTrace C (deleteAllRecords fs (tmpName fname)) (tmpName fname)
            (keptRecords p
              (scannedRecords C (deleteAllRecords fs (tmpName fname)) fname)))
          |>.getLastD (deleteAllRecords fs (tmpName fname))) fname =
      Except.ok fs3)
    (hren : renameFile fs3 (tmpName fname) fname = Except.ok fs4) :
    deleteTraceStates C fs fname p =
      (fs :: deleteAllRecords fs (tmpName fname) ::
        appendTrace C (deleteAllRecords fs (tmpName fname)) (tmpName fname)
          (keptRecords p
            (scannedRecords C (deleteAllRecords fs (tmpName fname)) fname)))
      ++ [fs3, fs4] := by
  simp only [deleteTraceStates]
  rw [hany, hdel]
  simp only [matchOkFs]
  rw [hren]
  rfl

theorem mappedRecords_getD {Rec : Type} (p : Rec → Bool) (n : Rec)
    (rs : List Rec) :
    ∀ (i : Nat) (d : Rec), i < rs.length →
      (mappedRecords p n rs).getD i d =
        if p (rs.getD i d) then n else rs.getD i d := by
  induction rs with
  | nil => intro i d hi; simp at hi
  | cons r rest ih =>
    intro i d hi
    cases i with
    | zero =>
      rw [mappedRecords, List.map_cons, List.getD_cons_zero, List.getD_cons_zero]
    | succ j =>
      rw [mappedRecords, List.map_cons, List.getD_cons_succ, List.getD_cons_succ]
      exact ih j d (Nat.succ_lt_succ_iff.mp hi)

theorem keptRecords_eq_self_of_any_false {Rec : Type} (p : Rec → Bool)
    (rs : List Rec) (h : rs.any p = false) : keptRecords p rs = rs := by
  rw [keptRecords, List.filter_eq_self]
  intro a ha
  cases hpa : p a with
  | false => simp [hpa]
  | true =>
    have : rs.any p = true := List.any_eq_true.mpr ⟨a, ha, hpa⟩
    rw [this] at h
    cases h

theorem all_not_iff_any_false {Rec : Type} (p : Rec → Bool) (rs : List Rec) :
    rs.all (fun r => !p r) = true ↔ rs.any p = false := by
  constructor
  · intro h
    cases hA : rs.any p with
    | false => rfl
    | true =>
      rw [List.any_eq_true] at hA
      obtain ⟨a, ha, hpa⟩ := hA
      rw [List.all_eq_true] at h
      have := h a ha
      rw [hpa] at this
      simp at this
  · intro h
    rw [List.all_eq_true]
    intro a ha
    cases hpa : p a with
    | false => rfl
    | true =>
      have : rs.any p = true := List.any_eq_true.mpr ⟨a, ha, hpa⟩
      rw [this] at h
      cases h

/-- C2: after a successful `updateRecords(P, N)` the stored sequence has
the same length as the pre-call record sequence `R`, and at every
position `i` the stored record is `N` when `P` held of `R[i]` and is
`R[i]` otherwise. -/
theorem updateRecords_filter_correct {Rec : Type} (C : LineCodec Rec)
    (fs : FileSys) (fname : String) (p : Rec → Bool) (n : Rec)
    (hwf : wellFormedAt C fs fname = true) :
    ∃ fs', updateRecords C fs fname p n = Except.ok fs' ∧
      getAllRecords C fs' fname =
        Except.ok (mappedRecords p n (scannedRecords C fs fname)) ∧
      (mappedRecords p n (scannedRecords C fs fname)).length =
        (scannedRecords C fs fname).length ∧
      ∀ (i : Nat) (d : Rec), i < (scannedRecords C fs fname).length →
        (mappedRecords p n (scannedRecords C fs fname)).getD i d =
          if p ((scannedRecords C fs fname).getD i d) then n
          else (scannedRecords C fs fname).getD i d := by
  obtain ⟨fs', hok, hbad, hemp, hne⟩ := updateRecords_spec C fs fname p n hwf
  refine ⟨fs', hok, ?_, by rw [mappedRecords, List.length_map],
    mappedRecords_getD p n _⟩
  by_cases hcs : scannedRecords C fs fname = []
  · obtain ⟨hf, _⟩ := hemp hcs
    have hwf' : wellFormedAt C fs' fname = true := by
      rw [wellFormedAt_congr C fs fs' fname hf]
      exact hwf
    rw [getAllRecords_eq C fs' fname hwf',
      scannedRecords_congr C fs fs' fname hf hbad, hcs]
    rfl
  · obtain ⟨hf, _, hnb⟩ := hne hcs
    have hnb' : fname ∉ fs'.badStat := by rw [hbad]; exact hnb
    exact getAllRecords_of_ndjson C fs' fname _ hf hnb'

/-- C3: after a successful `deleteRecords(P)` the stored sequence is the
pre-call sequence with exactly the records satisfying `P` removed, in
their original relative order; and when no pre-call record satisfies
`P`, the backing file's bytes are untouched. -/
theorem deleteRecords_filter_correct {Rec : Type} (C : LineCodec Rec)
    (fs : FileSys) (fname : String) (p : Rec → Bool)
    (hwf : wellFormedAt C fs fname = true) :
    ∃ fs', deleteRecords C fs fname p = Except.ok fs' ∧
      getAllRecords C fs' fname =
        Except.ok (keptRecords p (scannedRecords C fs fname)) ∧
      ((scannedRecords C fs fname).all (fun r => !p r) = true →
        fsRead fs' fname = fsRead fs fname) := by
  obtain ⟨fs', hok, hbad, htmp, hno, hyes⟩ := deleteRecords_spec C fs fname p hwf
  refine ⟨fs', hok, ?_, fun h => hno ((all_not_iff_any_false p _).mp h)⟩
  by_cases hany : (scannedRecords C fs fname).any p = true
  · obtain ⟨hf, hnb⟩ := hyes hany
    have hnb' : fname ∉ fs'.badStat := by rw [hbad]; exact hnb
    exact getAllRecords_of_ndjson C fs' fname _ hf hnb'
  · have hanyF : (scannedRecords C fs fname).any p = false := by
      rwa [Bool.not_eq_true] at hany
    have hf := hno hanyF
    have hwf' : wellFormedAt C fs' fname = true := by
      rw [wellFormedAt_congr C fs fs' fname hf]
      exact hwf
    rw [getAllRecords_eq C fs' fname hwf',
      scannedRecords_congr C fs fs' fname hf hbad,
      keptRecords_eq_self_of_any_false p _ hanyF]

/-- C9: `updateRecords` on a store whose backing file is absent or holds
no records leaves an empty temporary file at `backing + ".tmp.ndjson"`
behind (the no-swap branch creates the temp file and never removes it),
while the backing file is untouched. -/
theorem updateRecords_leaves_tmp {Rec : Type} (C : LineCodec Rec) (fs : FileSys)
    (fname : String) (p : Rec → Bool) (n : Rec)
    (hwf : wellFormedAt C fs fname = true)
    (h : fsRead fs fname = none ∨
      contentRecords C ((fsRead fs fname).getD []) = []) :
    ∃ fs', updateRecords C fs fname p n = Except.ok fs' ∧
      fsRead fs' (tmpName fname) = some [] ∧
      fsRead fs' fname = fsRead fs fname := by
  have hrs : scannedRecords C fs fname = [] := by
    rw [scannedRecords]
    by_cases hex : fileExists fs fname = true
    · rw [if_pos hex]
      cases h with
      | inl hnone =>
        obtain ⟨_, hsome⟩ := (fileExists_eq_true fs fname).mp hex
        rw [hnone] at hsome
        simp at hsome
      | inr hemp => exact hemp
    · rw [if_neg hex]
  obtain ⟨fs', hok, _, hempf, _⟩ := updateRecords_spec C fs fname p n hwf
  obtain ⟨hf, ht⟩ := hempf hrs
  exact ⟨fs', hok, ht, hf⟩

/-- C7: `append(R)` on an initially empty or absent store followed by
`getAll()` yields exactly `R`, in order. -/
theorem append_getAll_roundTrip {Rec : Type} (C : LineCodec Rec) (fs : FileSys)
    (fname : String) (rs : List Rec)
    (h0 : fsRead fs fname = none ∨ fsRead fs fname = some [])
    (hstat : fname ∉ fs.badStat) :
    getAllRecords C (addRecords C fs fname rs) fname = Except.ok rs := by
  have hw : fsRead (addRecords C fs fname rs) fname = some (ndjsonList C rs) := by
    rw [addRecords_eq_writeFile, fsRead_writeFile_self]
    cases h0 with
    | inl hh => rw [hh]; rfl
    | inr hh => rw [hh]; rfl
  have hnb : fname ∉ (addRecords C fs fname rs).badStat := by
    rw [addRecords_eq_writeFile, badStat_writeFile]
    exact hstat
  exact getAllRecords_of_ndjson C _ fname rs hw hnb

/-- C8: when the backing file does not exist, every scan-based read
succeeds as on an empty store, while `getDatabaseSize` fails with an
error. -/
theorem missingFile_reads_empty {Rec σ : Type} (C : LineCodec Rec)
    (fs : FileSys) (fname : String) (h : fsRead fs fname = none)
    (cb : Rec → Bool) (f : σ → Rec → σ × Bool) (init : σ) :
    getAllRecords C fs fname = Except.ok [] ∧
    findRecord C fs fname cb = Except.ok none ∧
    findRecords C fs fname cb = Except.ok [] ∧
    getNumRecords C fs fname = Except.ok 0 ∧
    forEachRecord C fs fname f init = Except.ok init ∧
    ∃ e, getDatabaseSize fs fname = Except.error e := by
  have hex : fileExists fs fname = false := by
    rw [fileExists, fsStat]
    by_cases hb : fname ∈ fs.badStat
    · rw [if_pos hb]
    · rw [if_neg hb, h]
  have hfe : ∀ {σ' : Type} (g : σ' → Rec → σ' × Bool) (i : σ'),
      forEachRecord C fs fname g i = Except.ok i := by
    intro σ' g i
    rw [forEachRecord, hex]
    rfl
  refine ⟨hfe _ _, hfe _ _, hfe _ _, ?_, hfe _ _, ?_⟩
  · rw [getNumRecords, getAllRecords, hfe _ _]
    rfl
  · rw [getDatabaseSize, fsStat]
    by_cases hb : fname ∈ fs.badStat
    · rw [if_pos hb]
      exact ⟨FsError.eacces, rfl⟩
    · rw [if_neg hb, h]
      exact ⟨FsError.enoent, rfl⟩

/-- C10: any `stat` failure on the backing file — not only absence, e.g.
a permission error on an existing file — makes `fileExists` report
false, so every scan-based read silently behaves as on an empty store
instead of propagating the filesystem error. -/
theorem badStat_reads_empty {Rec σ : Type} (C : LineCodec Rec) (fs : FileSys)
    (fname : String) (hbad : fname ∈ fs.badStat)
    (hexist : (fsRead fs fname).isSome = true) (cb : Rec → Bool)
    (f : σ → Rec → σ × Bool) (init : σ) :
    fileExists fs fname = false ∧
    getAllRecords C fs fname = Except.ok [] ∧
    findRecord C fs fname cb = Except.ok none ∧
    findRecords C fs fname cb = Except.ok [] ∧
    getNumRecords C fs fname = Except.ok 0 ∧
    forEachRecord C fs fname f init = Except.ok init := by
  have hex : fileExists fs fname = false := by
    rw [fileExists, fsStat, if_pos hbad]
  have hfe : ∀ {σ' : Type} (g : σ' → Rec → σ' × Bool) (i : σ'),
      forEachRecord C fs fname g i = Except.ok i := by
    intro σ' g i
    rw [forEachRecord, hex]
    rfl
  refine ⟨hex, hfe _ _, hfe _ _, hfe _ _, ?_, hfe _ _⟩
  rw [getNumRecords, getAllRecords, hfe _ _]
  rfl

/-- C6: an enqueued operation's failure is reported to its own caller
(the returned outcome is the callback's own outcome), while the stored
chain always resolves, so a subsequent operation enqueued with
`waitForUnlock = true` still runs — its outcome is its own callback's —
even when the previous operation failed. -/
theorem lockAndExecute_error_isolation {σ ε : Type}
    (cb1 cb2 : σ → Except ε Unit × σ) (st : LockState ε σ) (wfu : Bool)
    (h : st.chain = Except.ok ()) :
    (lockAndExecute cb1 wfu st).1 = (cb1 st.world).1 ∧
    (lockAndExecute cb1 wfu st).2.chain = Except.ok () ∧
    (lockAndExecute cb2 true (lockAndExecute cb1 wfu st).2).1 =
      (cb2 (lockAndExecute cb1 wfu st).2.world).1 := by
  have hrun : lockAndExecute cb1 wfu st =
      ((cb1 st.world).1,
       { chain := Except.ok (), world := (cb1 st.world).2 }) := by
    rw [lockAndExecute]
    cases wfu with
    | false => rfl
    | true => rw [h]; rfl
  rw [hrun]
  refine ⟨rfl, rfl, ?_⟩
  rw [lockAndExecute]
  rfl

theorem append_pair_assoc {α : Type} (l : List α) (a b : α) :
    l ++ [a, b] = (l ++ [a]) ++ [b] := by
  rw [List.append_assoc]
  rfl

theorem updateTrace_crashFacts {Rec : Type} (C : LineCodec Rec) (fs : FileSys)
    (fname : String) (p : Rec → Bool) (n : Rec) (S : Content)
    (hS : fsRead fs fname = some S) :
    (∀ s ∈ (updateTraceStates C fs fname p n).take
        (2 + (scannedRecords C fs fname).length), fsRead s fname = some S) ∧
    (∀ s ∈ updateTraceStates C fs fname p n,
      (fsRead s fname).isSome = true ∨ (fsRead s (tmpName fname)).isSome = true) ∧
    fsRead ((updateTraceStates C fs fname p n).getLastD fs) fname =
      some (if (scannedRecords C fs fname).isEmpty then S
            else ndjsonList C (mappedRecords p n (scannedRecords C fs fname))) ∧
    (scannedRecords C fs fname ≠ [] →
      ∃ s ∈ updateTraceStates C fs fname p n, fsRead s fname = none) := by
  have hne : fname ≠ tmpName fname := (tmpName_ne fname).symm
  have hr1 : fsRead (deleteAllRecords fs (tmpName fname)) fname = fsRead fs fname := by
    rw [deleteAllRecords, fsRead_writeFile_ne _ _ _ _ _ hne]
  have hS1 : fsRead (deleteAllRecords fs (tmpName fname)) fname = some S := by
    rw [hr1]; exact hS
  have ht1 : fsRead (deleteAllRecords fs (tmpName fname)) (tmpName fname) = some [] := by
    rw [deleteAllRecords, fsRead_writeFile_self]
    rfl
  have hb1 : (deleteAllRecords fs (tmpName fname)).badStat = fs.badStat := rfl
  have hrs1 : scannedRecords C (deleteAllRecords fs (tmpName fname)) fname
      = scannedRecords C fs fname := scannedRecords_congr C fs _ fname hr1 hb1
  by_cases hcs : scannedRecords C fs fname = []
  · have hemp : scannedRecords C (deleteAllRecords fs (tmpName fname)) fname = [] :=
      hrs1.trans hcs
    have htU : updateTraceStates C fs fname p n =
        [fs, deleteAllRecords fs (tmpName fname)] :=
      updateTraceStates_of_empty C fs fname p n hemp
    rw [htU, hcs]
    refine ⟨?_, ?_, ?_, fun h => absurd rfl h⟩
    · intro s hs
      rw [show ([fs, deleteAllRecords fs (tmpName fname)]).take
          (2 + ([] : List Rec).length) =
          [fs, deleteAllRecords fs (tmpName fname)] from rfl] at hs
      simp only [List.mem_cons, List.not_mem_nil, or_false] at hs
      rcases hs with rfl | rfl
      · exact hS
      · exact hS1
    · intro s hs
      simp only [List.mem_cons, List.not_mem_nil, or_false] at hs
      rcases hs with rfl | rfl
      · left; rw [hS]; rfl
      · left; rw [hS1]; rfl
    · exact hS1
  · have hisE : (scannedRecords C fs fname).isEmpty = false := by
      cases h : scannedRecords C fs fname with
      | nil => exact absurd h hcs
      | cons a l => rfl
    have hne0 : (scannedRecords C (deleteAllRecords fs (tmpName fname))
        fname).isEmpty = false := by
      rw [hrs1]; exact hisE
    have hglast : (appendTrace C (deleteAllRecords fs (tmpName fname))
          (tmpName fname)
          (mappedRecords p n
            (scannedRecords C (deleteAllRecords fs (tmpName fname)) fname))).getLastD
        (deleteAllRecords fs (tmpName fname)) =
        addRecordsFold C (deleteAllRecords fs (tmpName fname)) (tmpName fname)
          (mappedRecords p n
            (scannedRecords C (deleteAllRecords fs (tmpName fname)) fname)) :=
      appendTrace_getLastD C (tmpName fname) _ _
    have hrA : fsRead (addRecordsFold C (deleteAllRecords fs (tmpName fname))
          (tmpName fname)
          (mappedRecords p n
            (scannedRecords C (deleteAllRecords fs (tmpName fname)) fname)))
        fname = some S := by
      rw [fsRead_addRecordsFold_ne C (tmpName fname) fname _ hne]
      exact hS1
    have htA : fsRead (addRecordsFold C (deleteAllRecords fs (tmpName fname))
          (tmpName fname)
          (mappedRecords p n
            (scannedRecords C (deleteAllRecords fs (tmpName fname)) fname)))
        (tmpName fname) =
        some (ndjsonList C (mappedRecords p n
          (scannedRecords C (deleteAllRecords fs (tmpName fname)) fname))) := by
      rw [fsRead_addRecordsFold_self C (tmpName fname) _ _ [] ht1, List.nil_append]
    obtain ⟨fs3, hdel0, hdn, _, hdo⟩ := deleteFile_full _ fname S hrA
    have hdel : deleteFile
        ((appendTrace C (deleteAllRecords fs (tmpName fname)) (tmpName fname)
            (mappedRecords p n
              (scannedRecords C (deleteAllRecords fs (tmpName fname)) fname)))
          |>.getLastD (deleteAllRecords fs (tmpName fname))) fname =
        Except.ok fs3 := by
      rw [hglast]; exact hdel0
    have ht3 : fsRead fs3 (tmpName fname) =
        some (ndjsonList C (mappedRecords p n
          (scannedRecords C (deleteAllRecords fs (tmpName fname)) fname))) := by
      rw [hdo _ (tmpName_ne fname)]
      exact htA
    obtain ⟨fs4, hren, hr4, ht4, _, _⟩ :=
      renameFile_full fs3 (tmpName fname) fname _ ht3 hne
    have htU := updateTraceStates_of_swap C fs fname p n fs3 fs4 hne0 hdel hren
    have hlen : (fs :: deleteAllRecords fs (tmpName fname) ::
        appendTrace C (deleteAllRecords fs (tmpName fname)) (tmpName fname)
          (mappedRecords p n
            (scannedRecords C (deleteAllRecords fs (tmpName fname)) fname))).length
        = 2 + (scannedRecords C fs fname).length := by
      rw [List.length_cons, List.length_cons, appendTrace_length, mappedRecords,
        List.length_map, hrs1]
      omega
    refine ⟨?_, ?_, ?_, fun _ => ?_⟩
    · intro s hs
      rw [htU, ← hlen, take_length_append] at hs
      rcases List.mem_cons.mp hs with rfl | hs2
      · exact hS
      rcases List.mem_cons.mp hs2 with rfl | hs3
      · exact hS1
      · rw [appendTrace_mem_fname C (tmpName fname) fname _ hne _ s hs3]
        exact hS1
    · intro s hs
      rw [htU] at hs
      rcases List.mem_append.mp hs with hb | ht
      · left
        rcases List.mem_cons.mp hb with rfl | hb2
        · rw [hS]; rfl
        rcases List.mem_cons.mp hb2 with rfl | hb3
        · rw [hS1]; rfl
        · rw [appendTrace_mem_fname C (tmpName fname) fname _ hne _ s hb3, hS1]
          rfl
      · rcases List.mem_cons.mp ht with rfl | ht2
        · right; rw [ht3]; rfl
        rcases List.mem_cons.mp ht2 with rfl | ht3'
        · left; rw [hr4]; rfl
        · exact absurd ht3' (List.not_mem_nil s)
    · rw [htU, append_pair_assoc, getLastD_append_singleton, hisE, hr4, hrs1]
      rfl
    · refine ⟨fs3, ?_, hdn⟩
      rw [htU]
      exact List.mem_append.mpr (Or.inr (List.mem_cons_self _ _))

theorem deleteTrace_crashFacts {Rec : Type} (C : LineCodec Rec) (fs : FileSys)
    (fname : String) (p : Rec → Bool) (S : Content)
    (hS : fsRead fs fname = some S) :
    (∀ s ∈ (deleteTraceStates C fs fname p).take
        (2 + (keptRecords p (scannedRecords C fs fname)).length),
      fsRead s fname = some S) ∧
    (∀ s ∈ deleteTraceStates C fs fname p,
      (fsRead s fname).isSome = true ∨ (fsRead s (tmpName fname)).isSome = true) ∧
    fsRead ((deleteTraceStates C fs fname p).getLastD fs) fname =
      some (if (scannedRecords C fs fname).any p then
              ndjsonList C (keptRecords p (scannedRecords C fs fname)) else S) := by
  have hne : fname ≠ tmpName fname := (tmpName_ne fname).symm
  have hr1 : fsRead (deleteAllRecords fs (tmpName fname)) fname = fsRead fs fname := by
    rw [deleteAllRecords, fsRead_writeFile_ne _ _ _ _ _ hne]
  have hS1 : fsRead (deleteAllRecords fs (tmpName fname)) fname = some S := by
    rw [hr1]; exact hS
  have ht1 : fsRead (deleteAllRecords fs (tmpName fname)) (tmpName fname) = some [] := by
    rw [deleteAllRecords, fsRead_writeFile_self]
    rfl
  have hb1 : (deleteAllRecords fs (tmpName fname)).badStat = fs.badStat := rfl
  have hrs1 : scannedRecords C (deleteAllRecords fs (tmpName fname)) fname
      = scannedRecords C fs fname := scannedRecords_congr C fs _ fname hr1 hb1
  have hglast : (appendTrace C (deleteAllRecords fs (tmpName fname))
        (tmpName fname)
        (keptRecords p
          (scannedRecords C (deleteAllRecords fs (tmpName fname)) fname))).getLastD
      (deleteAllRecords fs (tmpName fname)) =
      addRecordsFold C (deleteAllRecords fs (tmpName fname)) (tmpName fname)
        (keptRecords p
          (scannedRecords C (deleteAllRecords fs (tmpName fname)) fname)) :=
    appendTrace_getLastD C (tmpName fname) _ _
  have hrA : fsRead (addRecordsFold C (deleteAllRecords fs (tmpName fname))
        (tmpName fname)
        (keptRecords p
          (scannedRecords C (deleteAllRecords fs (tmpName fname)) fname)))
      fname = some S := by
    rw [fsRead_addRecordsFold_ne C (tmpName fname) fname _ hne]
    exact hS1
  have htA : fsRead (addRecordsFold C (deleteAllRecords fs (tmpName fname))
        (tmpName fname)
        (keptRecords p
          (scannedRecords C (deleteAllRecords fs (tmpName fname)) fname)))
      (tmpName fname) =
      some (ndjsonList C (keptRecords p
        (scannedRecords C (deleteAllRecords fs (tmpName fname)) fname))) := by
    rw [fsRead_addRecordsFold_self C (tmpName fname) _ _ [] ht1, List.nil_append]
  have hlen : (fs :: deleteAllRecords fs (tmpName fname) ::
      appendTrace C (deleteAllRecords fs (tmpName fname)) (tmpName fname)
        (keptRecords p
          (scannedRecords C (deleteAllRecords fs (tmpName fname)) fname))).length
      = 2 + (keptRecords p (scannedRecords C fs fname)).length := by
    rw [List.length_cons, List.length_cons, appendTrace_length, hrs1]
    omega
  by_cases hany : (scannedRecords C fs fname).any p = true
  · have hany1 : (scannedRecords C (deleteAllRecords fs (tmpName fname))
        fname).any p = true := by
      rw [hrs1]; exact hany
    obtain ⟨fs3, hdel0, hdn, _, hdo⟩ := deleteFile_full _ fname S hrA
    have hdel : deleteFile
        ((appendTrace C (deleteAllRecords fs (tmpName fname)) (tmpName fname)
            (keptRecords p
              (scannedRecords C (deleteAllRecords fs (tmpName fname)) fname)))
          |>.getLastD (deleteAllRecords fs (tmpName fname))) fname =
        Except.ok fs3 := by
      rw [hglast]; exact hdel0
    have ht3 : fsRead fs3 (tmpName fname) =
        some (ndjsonList C (keptRecords p
          (scannedRecords C (deleteAllRecords fs (tmpName fname)) fname))) := by
      rw [hdo _ (tmpName_ne fname)]
      exact htA
    obtain ⟨fs4, hren, hr4, ht4, _, _⟩ :=
      renameFile_full fs3 (tmpName fname) fname _ ht3 hne
    have htD := deleteTraceStates_of_swap C fs fname p fs3 fs4 hany1 hdel hren
    refine ⟨?_, ?_, ?_⟩
    · intro s hs
      rw [htD, ← hlen, take_length_append] at hs
      rcases List.mem_cons.mp hs with rfl | hs2
      · exact hS
      rcases List.mem_cons.mp hs2 with rfl | hs3
      · exact hS1
      · rw [appendTrace_mem_fname C (tmpName fname) fname _ hne _ s hs3]
        exact hS1
    · intro s hs
      rw [htD] at hs
      rcases List.mem_append.mp hs with hb | ht
      · left
        rcases List.mem_cons.mp hb with rfl | hb2
        · rw [hS]; rfl
        rcases List.mem_cons.mp hb2 with rfl | hb3
        · rw [hS1]; rfl
        · rw [appendTrace_mem_fname C (tmpName fname) fname _ hne _ s hb3, hS1]
          rfl
      · rcases List.mem_cons.mp ht with rfl | ht2
        · right; rw [ht3]; rfl
        rcases List.mem_cons.mp ht2 with rfl | ht3'
        · left; rw [hr4]; rfl
        · exact absurd ht3' (List.not_mem_nil s)
    · rw [htD, append_pair_assoc, getLastD_append_singleton, hany, hr4, hrs1]
      rfl
  · have hanyF : (scannedRecords C fs fname).any p = false := by
      rwa [Bool.not_eq_true] at hany
    have hany1 : (scannedRecords C (deleteAllRecords fs (tmpName fname))
        fname).any p = false := by
      rw [hrs1]; exact hanyF
    obtain ⟨t, hdelT0, htn, _, hto⟩ := deleteFile_full _ (tmpName fname) _ htA
    have hdelT : deleteFile
        ((appendTrace C (deleteAllRecords fs (tmpName fname)) (tmpName fname)
            (keptRecords p
              (scannedRecords C (deleteAllRecords fs (tmpName fname)) fname)))
          |>.getLastD (deleteAllRecords fs (tmpName fname))) (tmpName fname) =
        Except.ok t := by
      rw [hglast]; exact hdelT0
    have htD := deleteTraceStates_of_noMatch C fs fname p t hany1 hdelT
    have hrT : fsRead t fname = some S := by
      rw [hto fname hne]
      exact hrA
    refine ⟨?_, ?_, ?_⟩
    · intro s hs
      rw [htD, ← hlen, take_length_append] at hs
      rcases List.mem_cons.mp hs with rfl | hs2
      · exact hS
      rcases List.mem_cons.mp hs2 with rfl | hs3
      · exact hS1
      · rw [appendTrace_mem_fname C (tmpName fname) fname _ hne _ s hs3]
        exact hS1
    · intro s hs
      rw [htD] at hs
      rcases List.mem_append.mp hs with hb | ht
      · left
        rcases List.mem_cons.mp hb with rfl | hb2
        · rw [hS]; rfl
        rcases List.mem_cons.mp hb2 with rfl | hb3
        · rw [hS1]; rfl
        · rw [appendTrace_mem_fname C (tmpName fname) fname _ hne _ s hb3, hS1]
          rfl
      · rcases List.mem_cons.mp ht with rfl | ht2
        · left; rw [hrT]; rfl
        · exact absurd ht2 (List.not_mem_nil s)
    · rw [htD, getLastD_append_singleton, hanyF, hrT]
      rfl

/-- C1 (counterexample): on a store whose backing file `"db"` holds one
record, `updateRecords` with an always-true predicate produces a
five-state failure-injection trace whose state at index 3 — which lies
strictly after the temp-file population (indices 0 to 2) and strictly
before the rename (the final step, index 4) — has the backing file
absent, while the pre-call state `S` was present.  So "if failure is
injected between temp-file population and the rename, the backing file
still equals `S`" is false at this input: the unlink precedes the
rename. -/
theorem update_crashWindow_cex :
    (updateTraceStates unaryCodec db1 "db" (fun _ => true) 1).length = 5 ∧
    fsRead db1 "db" = some ['x', '\n'] ∧
    fsRead ((updateTraceStates unaryCodec db1 "db" (fun _ => true) 1).getD 3 db1)
      "db" = none := by
  refine ⟨?_, rfl, ?_⟩ <;> rfl

/-- C1 (amended): for a replace-protocol operation (`updateRecords` or
`deleteRecords`) on a store with pre-call backing-file state `S`, a
failure injected at any point from the start through the completion of
the temp-file population (i.e. before the backing-file unlink) leaves
the backing file equal to `S`; at every injection point at least one of
the backing file and the temporary file exists; and after a successful
rename the backing file equals the intended post-call state (`S` itself
when the operation takes its no-swap branch). -/
theorem replace_crashWindow_amended {Rec : Type} (C : LineCodec Rec)
    (fs : FileSys) (fname : String) (p : Rec → Bool) (n : Rec) (S : Content)
    (hS : fsRead fs fname = some S)
    (hwf : wellFormedAt C fs fname = true) :
    (∀ s ∈ (updateTraceStates C fs fname p n).take
        (2 + (scannedRecords C fs fname).length), fsRead s fname = some S) ∧
    (∀ s ∈ (deleteTraceStates C fs fname p).take
        (2 + (keptRecords p (scannedRecords C fs fname)).length),
      fsRead s fname = some S) ∧
    (∀ s ∈ updateTraceStates C fs fname p n,
      (fsRead s fname).isSome = true ∨ (fsRead s (tmpName fname)).isSome = true) ∧
    (∀ s ∈ deleteTraceStates C fs fname p,
      (fsRead s fname).isSome = true ∨ (fsRead s (tmpName fname)).isSome = true) ∧
    fsRead ((updateTraceStates C fs fname p n).getLastD fs) fname =
      some (if (scannedRecords C fs fname).isEmpty then S
            else ndjsonList C (mappedRecords p n (scannedRecords C fs fname))) ∧
    fsRead ((deleteTraceStates C fs fname p).getLastD fs) fname =
      some (if (scannedRecords C fs fname).any p then
              ndjsonList C (keptRecords p (scannedRecords C fs fname)) else S) := by
  obtain ⟨u1, u2, u3, _⟩ := updateTrace_crashFacts C fs fname p n S hS
  obtain ⟨d1, d2, d3⟩ := deleteTrace_crashFacts C fs fname p S hS
  exact ⟨u1, d1, u2, d2, u3, d3⟩

theorem mappedRecords_eq_self {Rec : Type} (p : Rec → Bool) (n : Rec) :
    ∀ rs : List Rec, (∀ r ∈ rs, p r = false) → mappedRecords p n rs = rs := by
  intro rs
  induction rs with
  | nil => intro _; rfl
  | cons r rest ih =>
    intro h
    have h1 : p r = false := h r (List.mem_cons_self r rest)
    have h2 := ih (fun a ha => h a (List.mem_cons_of_mem r ha))
    rw [mappedRecords] at h2 ⊢
    rw [List.map_cons, h1, h2]
    rfl

/-- C4 (counterexample): on a store whose backing file `"db"` holds one
record followed by a trailing blank line, `updateRecords` with a
never-matching predicate still performs the swap: the backing file's
bytes change from `"x\n\n"` to the rewritten `"x\n"`, so the original
backing file is not left untouched, contradicting the claim that with
no matching record no swap happens. -/
theorem updateRecords_noMatch_cex :
    (updateRecords unaryCodec db2 "db" (fun _ => false) 1).map
        (fun fs' => fsRead fs' "db") = Except.ok (some ['x', '\n']) ∧
    fsRead db2 "db" = some ['x', '\n', '\n'] := by
  refine ⟨?_, rfl⟩
  rfl

/-- C4 (amended): for `updateRecords(P, N)` where no scanned record
satisfies `P`: the stored records are preserved, but the no-swap branch
is taken only when zero records were scanned — the backing file is then
untouched and the empty temp file is left behind, not discarded.  When
at least one record was scanned the swap does happen: the backing file
is deleted (some trace state has it absent) and replaced by renaming
the temp file, whose content is the canonical serialization of the
unchanged records. -/
theorem updateRecords_noMatch_amended {Rec : Type} (C : LineCodec Rec)
    (fs : FileSys) (fname : String) (p : Rec → Bool) (n : Rec)
    (hwf : wellFormedAt C fs fname = true)
    (hnm : (scannedRecords C fs fname).all (fun r => !p r) = true) :
    ∃ fs', updateRecords C fs fname p n = Except.ok fs' ∧
      getAllRecords C fs' fname = Except.ok (scannedRecords C fs fname) ∧
      (scannedRecords C fs fname = [] →
        fsRead fs' fname = fsRead fs fname ∧
        fsRead fs' (tmpName fname) = some []) ∧
      (scannedRecords C fs fname ≠ [] →
        fsRead fs' fname = some (ndjsonList C (scannedRecords C fs fname)) ∧
        fsRead fs' (tmpName fname) = none ∧
        ∃ s ∈ updateTraceStates C fs fname p n, fsRead s fname = none) := by
  have hall : ∀ r ∈ scannedRecords C fs fname, p r = false := by
    rw [List.all_eq_true] at hnm
    intro r hr
    have := hnm r hr
    cases hpr : p r with
    | false => rfl
    | true => rw [hpr] at this; simp at this
  have hmap : mappedRecords p n (scannedRecords C fs fname) =
      scannedRecords C fs fname := mappedRecords_eq_self p n _ hall
  obtain ⟨fs', hok, hbad, hemp, hne⟩ := updateRecords_spec C fs fname p n hwf
  refine ⟨fs', hok, ?_, hemp, fun hcs => ?_⟩
  · by_cases hcs : scannedRecords C fs fname = []
    · obtain ⟨hf, _⟩ := hemp hcs
      have hwf' : wellFormedAt C fs' fname = true := by
        rw [wellFormedAt_congr C fs fs' fname hf]
        exact hwf
      rw [getAllRecords_eq C fs' fname hwf',
        scannedRecords_congr C fs fs' fname hf hbad]
    · obtain ⟨hf, _, hnb⟩ := hne hcs
      have hnb' : fname ∉ fs'.badStat := by rw [hbad]; exact hnb
      have := getAllRecords_of_ndjson C fs' fname _ hf hnb'
      rw [hmap] at this
      exact this
  · obtain ⟨hf, ht, hnb⟩ := hne hcs
    have hsome : (fsRead fs fname).isSome = true := by
      by_cases hex : fileExists fs fname = true
      · exact ((fileExists_eq_true fs fname).mp hex).2
      · exact absurd (by rw [scannedRecords, if_neg hex]) hcs
    obtain ⟨S, hS⟩ := Option.isSome_iff_exists.mp hsome
    obtain ⟨_, _, _, htrace⟩ := updateTrace_crashFacts C fs fname p n S hS
    rw [hmap] at hf
    exact ⟨hf, ht, htrace hcs⟩

theorem updateRecords_filter_correct_witness :
    wellFormedAt unaryCodec db1 "db" = true ∧
    (∃ fs', updateRecords unaryCodec db1 "db" (fun r => r == 0) 2 = Except.ok fs' ∧
      getAllRecords unaryCodec fs' "db" =
        Except.ok (mappedRecords (fun r => r == 0) 2
          (scannedRecords unaryCodec db1 "db")) ∧
      (mappedRecords (fun r => r == 0) 2
          (scannedRecords unaryCodec db1 "db")).length =
        (scannedRecords unaryCodec db1 "db").length ∧
      ∀ (i : Nat) (d : Nat), i < (scannedRecords unaryCodec db1 "db").length →
        (mappedRecords (fun r => r == 0) 2
            (scannedRecords unaryCodec db1 "db")).getD i d =
          if (scannedRecords unaryCodec db1 "db").getD i d == 0 then 2
          else (scannedRecords unaryCodec db1 "db").getD i d) :=
  ⟨by decide,
    updateRecords_filter_correct unaryCodec db1 "db" (fun r => r == 0) 2 (by decide)⟩

theorem deleteRecords_filter_correct_witness :
    wellFormedAt unaryCodec db1 "db" = true ∧
    (∃ fs', deleteRecords unaryCodec db1 "db" (fun r => r == 0) = Except.ok fs' ∧
      getAllRecords unaryCodec fs' "db" =
        Except.ok (keptRecords (fun r => r == 0)
          (scannedRecords unaryCodec db1 "db")) ∧
      ((scannedRecords unaryCodec db1 "db").all (fun r => !(r == 0)) = true →
        fsRead fs' "db" = fsRead db1 "db")) :=
  ⟨by decide,
    deleteRecords_filter_correct unaryCodec db1 "db" (fun r => r == 0) (by decide)⟩

theorem replace_crashWindow_amended_witness :
    fsRead db1 "db" = some ['x', '\n'] ∧
    wellFormedAt unaryCodec db1 "db" = true ∧
    ((∀ s ∈ (updateTraceStates unaryCodec db1 "db" (fun r => r == 0) 2).take
        (2 + (scannedRecords unaryCodec db1 "db").length),
        fsRead s "db" = some ['x', '\n']) ∧
      (∀ s ∈ (deleteTraceStates unaryCodec db1 "db" (fun r => r == 0)).take
          (2 + (keptRecords (fun r => r == 0)
            (scannedRecords unaryCodec db1 "db")).length),
        fsRead s "db" = some ['x', '\n']) ∧
      (∀ s ∈ updateTraceStates unaryCodec db1 "db" (fun r => r == 0) 2,
        (fsRead s "db").isSome = true ∨ (fsRead s (tmpName "db")).isSome = true) ∧
      (∀ s ∈ deleteTraceStates unaryCodec db1 "db" (fun r => r == 0),
        (fsRead s "db").isSome = true ∨ (fsRead s (tmpName "db")).isSome = true) ∧
      fsRead ((updateTraceStates unaryCodec db1 "db" (fun r => r == 0) 2).getLastD
          db1) "db" =
        some (if (scannedRecords unaryCodec db1 "db").isEmpty then ['x', '\n']
          else ndjsonList unaryCodec (mappedRecords (fun r => r == 0) 2
            (scannedRecords unaryCodec db1 "db"))) ∧
      fsRead ((deleteTraceStates unaryCodec db1 "db" (fun r => r == 0)).getLastD
          db1) "db" =
        some (if (scannedRecords unaryCodec db1 "db").any (fun r => r == 0) then
            ndjsonList unaryCodec (keptRecords (fun r => r == 0)
              (scannedRecords unaryCodec db1 "db"))
          else ['x', '\n'])) :=
  ⟨rfl, by decide,
    replace_crashWindow_amended unaryCodec db1 "db" (fun r => r == 0) 2
      ['x', '\n'] rfl (by decide)⟩

theorem updateRecords_noMatch_amended_witness :
    wellFormedAt unaryCodec db2 "db" = true ∧
    (scannedRecords unaryCodec db2 "db").all (fun r => !(fun _ : Nat => false) r)
      = true ∧
    (∃ fs', updateRecords unaryCodec db2 "db" (fun _ : Nat => false) 1 =
        Except.ok fs' ∧
      getAllRecords unaryCodec fs' "db" =
        Except.ok (scannedRecords unaryCodec db2 "db") ∧
      (scannedRecords unaryCodec db2 "db" = [] →
        fsRead fs' "db" = fsRead db2 "db" ∧
        fsRead fs' (tmpName "db") = some []) ∧
      (scannedRecords unaryCodec db2 "db" ≠ [] →
        fsRead fs' "db" =
          some (ndjsonList unaryCodec (scannedRecords unaryCodec db2 "db")) ∧
        fsRead fs' (tmpName "db") = none ∧
        ∃ s ∈ updateTraceStates unaryCodec db2 "db" (fun _ : Nat => false) 1,
          fsRead s "db" = none)) :=
  ⟨by decide, by decide,
    updateRecords_noMatch_amended unaryCodec db2 "db" (fun _ : Nat => false) 1
      (by decide) (by decide)⟩

theorem lockAndExecute_error_isolation_witness :
    (⟨Except.ok (), 0⟩ : LockState String Nat).chain = Except.ok () ∧
    ((lockAndExecute (fun k => (Except.error "boom", k + 1)) true
        (⟨Except.ok (), 0⟩ : LockState String Nat)).1 =
      ((fun k => ((Except.error "boom" : Except String Unit), k + 1))
        (⟨Except.ok (), 0⟩ : LockState String Nat).world).1 ∧
    (lockAndExecute (fun k => (Except.error "boom", k + 1)) true
        (⟨Except.ok (), 0⟩ : LockState String Nat)).2.chain = Except.ok () ∧
    (lockAndExecute (fun k => ((Except.ok () : Except String Unit), k * 2)) true
        (lockAndExecute (fun k => (Except.error "boom", k + 1)) true
          (⟨Except.ok (), 0⟩ : LockState String Nat)).2).1 =
      ((fun k => ((Except.ok () : Except String Unit), k * 2))
        (lockAndExecute (fun k => (Except.error "boom", k + 1)) true
          (⟨Except.ok (), 0⟩ : LockState String Nat)).2.world).1) :=
  ⟨rfl,
    lockAndExecute_error_isolation (fun k => (Except.error "boom", k + 1))
      (fun k => (Except.ok (), k * 2)) (⟨Except.ok (), 0⟩ : LockState String Nat)
      true rfl⟩

theorem append_getAll_roundTrip_witness :
    (fsRead db0 "db" = none ∨ fsRead db0 "db" = some []) ∧
    "db" ∉ db0.badStat ∧
    getAllRecords unaryCodec (addRecords unaryCodec db0 "db" [3, 1]) "db" =
      Except.ok [3, 1] :=
  ⟨Or.inl rfl, by decide,
    append_getAll_roundTrip unaryCodec db0 "db" [3, 1] (Or.inl rfl) (by decide)⟩

theorem missingFile_reads_empty_witness :
    fsRead db0 "db" = none ∧
    (getAllRecords unaryCodec db0 "db" = Except.ok [] ∧
      findRecord unaryCodec db0 "db" (fun r => r == 0) = Except.ok none ∧
      findRecords unaryCodec db0 "db" (fun r => r == 0) = Except.ok [] ∧
      getNumRecords unaryCodec db0 "db" = Except.ok 0 ∧
      forEachRecord unaryCodec db0 "db"
        (fun (s : Nat) (_ : Nat) => (s + 1, true)) 7 = Except.ok 7 ∧
      ∃ e, getDatabaseSize db0 "db" = Except.error e) :=
  ⟨rfl,
    missingFile_reads_empty unaryCodec db0 "db" rfl (fun r => r == 0)
      (fun (s : Nat) (_ : Nat) => (s + 1, true)) 7⟩

theorem updateRecords_leaves_tmp_witness :
    wellFormedAt unaryCodec dbE "db" = true ∧
    (fsRead dbE "db" = none ∨
      contentRecords unaryCodec ((fsRead dbE "db").getD []) = []) ∧
    (∃ fs', updateRecords unaryCodec dbE "db" (fun r => r == 0) 2 =
        Except.ok fs' ∧
      fsRead fs' (tmpName "db") = some [] ∧
      fsRead fs' "db" = fsRead dbE "db") :=
  ⟨by decide, Or.inr (by decide),
    updateRecords_leaves_tmp unaryCodec dbE "db" (fun r => r == 0) 2 (by decide)
      (Or.inr (by decide))⟩

theorem badStat_reads_empty_witness :
    "db" ∈ dbBad.badStat ∧
    (fsRead dbBad "db").isSome = true ∧
    (fileExists dbBad "db" = false ∧
      getAllRecords unaryCodec dbBad "db" = Except.ok [] ∧
      findRecord unaryCodec dbBad "db" (fun r => r == 0) = Except.ok none ∧
      findRecords unaryCodec dbBad "db" (fun r => r == 0) = Except.ok [] ∧
      getNumRecords unaryCodec dbBad "db" = Except.ok 0 ∧
      forEachRecord unaryCodec dbBad "db"
        (fun (s : Nat) (_ : Nat) => (s + 1, true)) 7 = Except.ok 7) :=
  ⟨by decide, rfl,
    badStat_reads_empty unaryCodec dbBad "db" (by decide) rfl (fun r => r == 0)
      (fun (s : Nat) (_ : Nat) => (s + 1, true)) 7⟩

end NdBase
